import Mathlib

/-!
# Verification of the grid-update load generator (`test-kafka-producer.py`)

Shallow embedding of the Python script that periodically synthesizes random
"grid cell update" batches and publishes them to a message broker.

Modelling conventions:
* Python strings are `List Char`.
* Python `int` is `Int` (`Nat` where the source value is a count or an index).
* Python `float` is `ℚ`; `random.uniform(a, b)` draws a dyadic rational in
  `[a, b)` with 53-bit resolution, matching the resolution of
  `random.random()`; `round(x, 2)` is round-to-nearest with ties to even,
  Python's rounding mode.
* The global `random` generator and the wall clock are explicit inputs: a
  `PyState` holds an infinite stream of raw draws and an infinite stream of
  millisecond clock readings, each with a cursor.  Every primitive that the
  script calls (`random.randint`, `random.choice`, `random.uniform`,
  `int(time.time() * 1000)`) consumes from these streams.
* Fallible primitives return `Option` (`random.randint` raises `ValueError`
  when the range is empty; `random.choice` raises `IndexError` on an empty
  sequence); `none` models an exception escaping.
-/

/-! ## Characters and decimal numerals -/

/-- Convert a Lean string literal to the `List Char` model of Python strings. -/
def pystr (s : String) : List Char := s.data

/-- The decimal digit character for `d < 10` (`'0'` is code point 48). -/
def digitChar (d : Nat) : Char := Char.ofNat (48 + d)

/-- Is `c` a decimal digit `'0'`..`'9'`? -/
def isDigitC (c : Char) : Bool := decide (48 ≤ c.toNat ∧ c.toNat ≤ 57)

/-- Decimal numeral of `n`, most significant digit first.  Fuel-based so that
it is structurally recursive (the fuel `n + 1` always suffices since `n / 10`
shrinks at every step). -/
def natToCharsAux : Nat → Nat → List Char
  | 0, _ => []
  | fuel + 1, n =>
    if n < 10 then [digitChar n]
    else natToCharsAux fuel (n / 10) ++ [digitChar (n % 10)]

/-- Decimal numeral of a natural number, e.g. `natToChars 1000 = "1000"`. -/
def natToChars (n : Nat) : List Char := natToCharsAux (n + 1) n

/-- Decimal numeral of an integer (a leading `'-'` when negative). -/
def intToChars (i : Int) : List Char :=
  if i < 0 then '-' :: natToChars (-i).toNat else natToChars i.toNat

/-- Read a digit string back as a natural number, most significant first. -/
def digitsToNat (cs : List Char) : Nat :=
  cs.foldl (fun a c => a * 10 + (c.toNat - 48)) 0

/-! ## The random/clock environment -/

/-- Explicit model of the script's ambient effects: an infinite stream of raw
random draws (each a nonnegative integer, reduced modulo the needed range by
the primitives) and an infinite stream of millisecond wall-clock readings,
together with cursors recording how much of each stream has been consumed. -/
structure PyState where
  rand : Nat → Nat
  rpos : Nat
  clock : Nat → Nat
  cpos : Nat

/-- Consume one raw random draw. -/
def nextRand (s : PyState) : Nat × PyState :=
  (s.rand s.rpos, { s with rpos := s.rpos + 1 })

/-- Read `int(time.time() * 1000)`: consume one clock value. -/
def nextClock (s : PyState) : Nat × PyState :=
  (s.clock s.cpos, { s with cpos := s.cpos + 1 })

/-- `random.randint(lo, hi)`: a uniform integer in `[lo, hi]`, inclusive on
both ends; raises `ValueError` (here: `none`) when `hi < lo`. -/
def py_randint (lo hi : Int) (s : PyState) : Option (Int × PyState) :=
  if hi < lo then none
  else
    let (x, s') := nextRand s
    some (lo + (x : Int) % (hi - lo + 1), s')

/-- `random.choice(xs)`: a uniformly chosen element of `xs`; raises
`IndexError` (here: `none`) on an empty sequence. -/
def py_choice {α : Type} (xs : List α) (s : PyState) : Option (α × PyState) :=
  let (x, s') := nextRand s
  match xs.get? (x % xs.length) with
  | some a => some (a, s')
  | none => none

/-- `random.uniform(a, b)` for `a ≤ b`: `a + (b - a) * random.random()`,
where `random.random()` is a 53-bit dyadic rational in `[0, 1)`. -/
def py_uniform (a b : ℚ) (s : PyState) : ℚ × PyState :=
  let (x, s') := nextRand s
  (a + (b - a) * ((x % 2 ^ 53 : Nat) : ℚ) / 2 ^ 53, s')

/-- Round to the nearest integer, ties to even — Python's `round` mode. -/
def roundHalfEven (q : ℚ) : ℤ :=
  let f := ⌊q⌋
  if q - f < 1 / 2 then f
  else if 1 / 2 < q - f then f + 1
  else if f % 2 = 0 then f else f + 1

/-- Python's `round(x, 2)`: round to two decimal places. -/
def py_round2 (q : ℚ) : ℚ := (roundHalfEven (100 * q) : ℚ) / 100

/-! ## The data model (§3 of the spec) -/

/-- The runtime value stored in a cell update: Python `str`, `float`, `int`
or `bool` (a `"timestamp"`-tagged value is an `int`). -/
inductive CellValue where
  | str (s : List Char)
  | num (q : ℚ)
  | int (n : Int)
  | bool (b : Bool)
deriving DecidableEq

/-- One cell change, as built by the inner loop of
`create_cell_update_message`. -/
structure Change where
  row : Int
  column : Int
  newValue : CellValue
  dataType : List Char
deriving DecidableEq

/-- One update batch, as returned by `create_cell_update_message`. -/
structure UpdateBatch where
  batchId : List Char
  gridId : List Char
  eventType : List Char
  changes : List Change
  timestamp : Int
deriving DecidableEq

/-- The five value kinds the script draws from (`value_types` in the source). -/
def value_types : List (List Char) :=
  [pystr "string", pystr "number", pystr "integer", pystr "boolean", pystr "timestamp"]

/-- The `batchId` string: `f"batch_{int(time.time()*1000)}_{random.randint(1000, 9999)}"`. -/
def batchIdString (t : Nat) (r : Int) : List Char :=
  pystr "batch_" ++ natToChars t ++ '_' :: intToChars r

/-- One iteration of the `for i in range(num_changes)` loop: draw a row in
`[0, 49]`, a column in `[0, 24]`, a `dataType` tag, and a value whose shape is
dictated by the tag. -/
def makeChange (s : PyState) : Option (Change × PyState) := do
  let (row, s) ← py_randint 0 49 s
  let (col, s) ← py_randint 0 24 s
  let (data_type, s) ← py_choice value_types s
  let (value, s) ←
    if data_type = pystr "string" then do
      let (k, s) ← py_randint 1000 9999 s
      pure (CellValue.str (pystr "Updated_" ++ intToChars k), s)
    else if data_type = pystr "number" then
      let (u, s) := py_uniform 1 1000 s
      pure (CellValue.num (py_round2 u), s)
    else if data_type = pystr "integer" then do
      let (k, s) ← py_randint 1 1000 s
      pure (CellValue.int k, s)
    else if data_type = pystr "boolean" then do
      let (b, s) ← py_choice [true, false] s
      pure (CellValue.bool b, s)
    else
      let (t, s) := nextClock s
      pure (CellValue.int t, s)
  pure ({ row := row, column := col, newValue := value, dataType := data_type }, s)

/-- The whole `for` loop: build `n` changes in order. -/
def makeChanges : Nat → PyState → Option (List Change × PyState)
  | 0, s => some ([], s)
  | n + 1, s => do
    let (c, s) ← makeChange s
    let (cs, s) ← makeChanges n s
    pure (c :: cs, s)

/-- `create_cell_update_message(grid_id, num_changes)`: the changes loop, then
the result dictionary, whose fields are evaluated in source order — the
`batchId` clock reading precedes the `batchId` random suffix, which precedes
the `timestamp` clock reading. -/
def create_cell_update_message (grid_id : List Char) (num_changes : Int)
    (s : PyState) : Option (UpdateBatch × PyState) := do
  let (chs, s) ← makeChanges num_changes.toNat s
  let (t, s) := nextClock s
  let (r, s) ← py_randint 1000 9999 s
  let (t2, s) := nextClock s
  pure ({ batchId := batchIdString t r
        , gridId := grid_id
        , eventType := pystr "CELL_UPDATE"
        , changes := chs
        , timestamp := (t2 : Int) }, s)

/-- One loop iteration's message construction in `main()`:
`create_cell_update_message(num_changes=random.randint(1, 3))` with the
default `grid_id="user1_view1"`. -/
def mainMessage (s : PyState) : Option (UpdateBatch × PyState) := do
  let (n, s) ← py_randint 1 3 s
  create_cell_update_message (pystr "user1_view1") n s

/-! ## JSON (the wire encoding: `json.dumps(v).encode('utf-8')`)

`json.dumps` with default options separates items with `", "` and keys from
values with `": "`.  A mutual inductive keeps structural recursion and
induction simple.  A two-decimal float (the only kind of float the script
produces, via `round(_, 2)`) is carried as its mantissa: `Json.num m`
denotes the number `m / 100` and prints with exactly two decimal digits. -/

mutual
inductive Json where
  | str (s : List Char)
  | jint (n : Int)
  | num (m : Int)
  | jbool (b : Bool)
  | arr (xs : JsonList)
  | obj (kvs : JsonObj)
deriving DecidableEq

inductive JsonList where
  | nil
  | cons (j : Json) (tl : JsonList)
deriving DecidableEq

inductive JsonObj where
  | nil
  | cons (k : List Char) (v : Json) (tl : JsonObj)
deriving DecidableEq
end

/-- Numeral of the two-decimal number `m / 100`, e.g. `12345 ↦ "123.45"`,
`100 ↦ "1.00"`, `-5 ↦ "-0.05"`. -/
def numToChars (m : Int) : List Char :=
  if m < 0 then
    '-' :: (natToChars ((-m).toNat / 100) ++
      '.' :: [digitChar ((-m).toNat / 10 % 10), digitChar ((-m).toNat % 10)])
  else
    natToChars (m.toNat / 100) ++
      '.' :: [digitChar (m.toNat / 10 % 10), digitChar (m.toNat % 10)]

mutual
/-- `json.dumps` (default options) as characters. -/
def dumpsVal : Json → List Char
  | .str s => '"' :: (s ++ ['"'])
  | .jint n => intToChars n
  | .num m => numToChars m
  | .jbool b => if b then pystr "true" else pystr "false"
  | .arr xs => '[' :: (dumpsElems xs ++ [']'])
  | .obj kvs => '{' :: (dumpsMembers kvs ++ ['}'])

/-- Array elements joined by `", "`. -/
def dumpsElems : JsonList → List Char
  | .nil => []
  | .cons j .nil => dumpsVal j
  | .cons j (.cons j' tl) => dumpsVal j ++ ',' :: ' ' :: dumpsElems (.cons j' tl)

/-- Object members `"key": value` joined by `", "`. -/
def dumpsMembers : JsonObj → List Char
  | .nil => []
  | .cons k v .nil => '"' :: (k ++ '"' :: ':' :: ' ' :: dumpsVal v)
  | .cons k v (.cons k' v' tl) =>
    '"' :: (k ++ '"' :: ':' :: ' ' :: dumpsVal v) ++
      ',' :: ' ' :: dumpsMembers (.cons k' v' tl)
end

/-- A character that `json.dumps` emits verbatim inside a quoted string:
printable ASCII other than `'"'` and `'\'`. -/
def SafeChar (c : Char) : Prop :=
  32 ≤ c.toNat ∧ c.toNat < 128 ∧ c.toNat ≠ 34 ∧ c.toNat ≠ 92

instance (c : Char) : Decidable (SafeChar c) := by unfold SafeChar; infer_instance

/-- All characters of a string are safe. -/
def SafeStr (s : List Char) : Prop := ∀ c ∈ s, SafeChar c

instance (s : List Char) : Decidable (SafeStr s) := by
  unfold SafeStr; exact List.decidableBAll _ s

mutual
/-- Well-formed JSON for the round-trip: every string is made of characters
that serialize verbatim. -/
def JsonWf : Json → Prop
  | .str s => SafeStr s
  | .jint _ => True
  | .num _ => True
  | .jbool _ => True
  | .arr xs => JsonListWf xs
  | .obj kvs => JsonObjWf kvs

def JsonListWf : JsonList → Prop
  | .nil => True
  | .cons j tl => JsonWf j ∧ JsonListWf tl

def JsonObjWf : JsonObj → Prop
  | .nil => True
  | .cons k v tl => SafeStr k ∧ JsonWf v ∧ JsonObjWf tl
end

mutual
/-- Size measure bounding the parser fuel a value needs. -/
def jsize : Json → Nat
  | .arr xs => jsizeL xs + 1
  | .obj kvs => jsizeO kvs + 1
  | _ => 1

def jsizeL : JsonList → Nat
  | .nil => 0
  | .cons j tl => jsize j + jsizeL tl + 1

def jsizeO : JsonObj → Nat
  | .nil => 0
  | .cons _ v tl => jsize v + jsizeO tl + 1
end

/-- Split off the longest prefix of characters before the closing `'"'`;
`none` when the string is unterminated. -/
def spanNotQuote : List Char → Option (List Char × List Char)
  | [] => none
  | c :: rest =>
    if c = '"' then some ([], rest)
    else
      match spanNotQuote rest with
      | some (s, r) => some (c :: s, r)
      | none => none

/-- Split off the longest prefix of decimal digits. -/
def spanDigits : List Char → List Char × List Char
  | [] => ([], [])
  | c :: rest =>
    if isDigitC c then
      let (d, r) := spanDigits rest
      (c :: d, r)
    else ([], c :: rest)

/-- Negate a parsed JSON number (used for a leading `'-'`). -/
def negJson : Json → Json
  | .jint n => .jint (-n)
  | .num m => .num (-m)
  | j => j

/-- Parse an unsigned JSON number: digits, optionally `'.'` and exactly two
digits (the only float shape this development serializes). -/
def parseUnsignedNumber (cs : List Char) : Option (Json × List Char) :=
  let (ds, r) := spanDigits cs
  if ds = [] then none
  else if r.head? = some '.' then
    match r.tail with
    | c1 :: c2 :: r2 =>
      if isDigitC c1 && isDigitC c2 then
        some (.num ((digitsToNat ds : Int) * 100 +
          ((c1.toNat - 48) : Nat) * 10 + ((c2.toNat - 48) : Nat)), r2)
      else some (.jint (digitsToNat ds), r)
    | _ => some (.jint (digitsToNat ds), r)
  else some (.jint (digitsToNat ds), r)

/-- Parse a JSON number with optional sign. -/
def parseNumber (cs : List Char) : Option (Json × List Char) :=
  if cs.head? = some '-' then
    match parseUnsignedNumber cs.tail with
    | some (j, r) => some (negJson j, r)
    | none => none
  else parseUnsignedNumber cs

mutual
/-- Recursive-descent JSON reader (the model of `json.loads`); `fuel` bounds
the nesting and is decremented on every recursive call. -/
def parseVal : Nat → List Char → Option (Json × List Char)
  | 0, _ => none
  | _ + 1, [] => none
  | fuel + 1, c :: rest =>
    if c = '"' then
      match spanNotQuote rest with
      | some (s, r) => some (.str s, r)
      | none => none
    else if c = 't' then
      match rest with
      | 'r' :: 'u' :: 'e' :: r => some (.jbool true, r)
      | _ => none
    else if c = 'f' then
      match rest with
      | 'a' :: 'l' :: 's' :: 'e' :: r => some (.jbool false, r)
      | _ => none
    else if c = '[' then
      if rest.head? = some ']' then some (.arr .nil, rest.tail)
      else
        match parseElems fuel rest with
        | some (xs, r) => some (.arr xs, r)
        | none => none
    else if c = '{' then
      if rest.head? = some '}' then some (.obj .nil, rest.tail)
      else
        match parseMembers fuel rest with
        | some (kvs, r) => some (.obj kvs, r)
        | none => none
    else parseNumber (c :: rest)

/-- One or more array elements, consuming the closing `']'`. -/
def parseElems : Nat → List Char → Option (JsonList × List Char)
  | 0, _ => none
  | fuel + 1, cs =>
    match parseVal fuel cs with
    | some (v, r) =>
      match r with
      | ',' :: ' ' :: r2 =>
        match parseElems fuel r2 with
        | some (xs, r3) => some (.cons v xs, r3)
        | none => none
      | ']' :: r2 => some (.cons v .nil, r2)
      | _ => none
    | none => none

/-- One or more object members, consuming the closing `'}'`. -/
def parseMembers : Nat → List Char → Option (JsonObj × List Char)
  | 0, _ => none
  | fuel + 1, cs =>
    match cs with
    | '"' :: rest =>
      match spanNotQuote rest with
      | some (k, r) =>
        match r with
        | ':' :: ' ' :: r2 =>
          match parseVal fuel r2 with
          | some (v, r3) =>
            match r3 with
            | ',' :: ' ' :: r4 =>
              match parseMembers fuel r4 with
              | some (kvs, r5) => some (.cons k v kvs, r5)
              | none => none
            | '}' :: r4 => some (.cons k v .nil, r4)
            | _ => none
          | none => none
        | _ => none
      | none => none
    | _ => none
end

/-! ## UTF-8 -/

/-- UTF-8 encoding of one code point as byte values. -/
def utf8EncodeChar (c : Char) : List Nat :=
  let n := c.toNat
  if n < 0x80 then [n]
  else if n < 0x800 then [0xC0 + n / 64, 0x80 + n % 64]
  else if n < 0x10000 then
    [0xE0 + n / 4096, 0x80 + n / 64 % 64, 0x80 + n % 64]
  else
    [0xF0 + n / 262144, 0x80 + n / 4096 % 64, 0x80 + n / 64 % 64, 0x80 + n % 64]

/-- `str.encode('utf-8')`. -/
def utf8Encode (cs : List Char) : List Nat :=
  cs.foldr (fun c acc => utf8EncodeChar c ++ acc) []

/-- Is `n` a UTF-8 continuation byte? -/
def isCont (n : Nat) : Bool := decide (0x80 ≤ n ∧ n < 0xC0)

/-- Decode one UTF-8 encoded code point from the front of the byte list;
`none` on malformed input. -/
def utf8DecodeChar1 : List Nat → Option (Char × List Nat)
  | [] => none
  | b1 :: rest =>
    if b1 < 0x80 then some (Char.ofNat b1, rest)
    else if b1 < 0xC2 then none
    else if b1 < 0xE0 then
      match rest with
      | b2 :: rest2 =>
        if isCont b2 then some (Char.ofNat ((b1 - 0xC0) * 64 + (b2 - 0x80)), rest2)
        else none
      | _ => none
    else if b1 < 0xF0 then
      match rest with
      | b2 :: b3 :: rest2 =>
        if isCont b2 && isCont b3 then
          if 0x800 ≤ (b1 - 0xE0) * 4096 + (b2 - 0x80) * 64 + (b3 - 0x80) ∧
              ((b1 - 0xE0) * 4096 + (b2 - 0x80) * 64 + (b3 - 0x80) < 0xD800 ∨
                0xE000 ≤ (b1 - 0xE0) * 4096 + (b2 - 0x80) * 64 + (b3 - 0x80)) then
            some (Char.ofNat ((b1 - 0xE0) * 4096 + (b2 - 0x80) * 64 + (b3 - 0x80)), rest2)
          else none
        else none
      | _ => none
    else if b1 < 0xF5 then
      match rest with
      | b2 :: b3 :: b4 :: rest2 =>
        if isCont b2 && isCont b3 && isCont b4 then
          if 0x10000 ≤ (b1 - 0xF0) * 262144 + (b2 - 0x80) * 4096 +
              (b3 - 0x80) * 64 + (b4 - 0x80) ∧
              (b1 - 0xF0) * 262144 + (b2 - 0x80) * 4096 +
                (b3 - 0x80) * 64 + (b4 - 0x80) < 0x110000 then
            some (Char.ofNat ((b1 - 0xF0) * 262144 + (b2 - 0x80) * 4096 +
              (b3 - 0x80) * 64 + (b4 - 0x80)), rest2)
          else none
        else none
      | _ => none
    else none

/-- Decode code points one at a time; `fuel` bounds the number of characters
(each consumes at least one byte, so the byte count suffices). -/
def utf8DecodeLoop : Nat → List Nat → Option (List Char)
  | _, [] => some []
  | 0, _ :: _ => none
  | fuel + 1, b :: rest =>
    match utf8DecodeChar1 (b :: rest) with
    | some (c, rest2) =>
      match utf8DecodeLoop fuel rest2 with
      | some cs => some (c :: cs)
      | none => none
    | none => none

/-- UTF-8 decoding (`bytes.decode('utf-8')`); `none` on malformed input. -/
def utf8Decode (bs : List Nat) : Option (List Char) :=
  utf8DecodeLoop bs.length bs

/-- The producer's value serializer: `lambda v: json.dumps(v).encode('utf-8')`,
acting on the JSON tree of the Python value. -/
def value_serializer (j : Json) : List Nat := utf8Encode (dumpsVal j)

/-- The matching decoder: `json.loads(bytes.decode('utf-8'))`, which rejects
trailing data. -/
def json_loads_bytes (bs : List Nat) : Option Json :=
  match utf8Decode bs with
  | some cs =>
    match parseVal (cs.length + 1) cs with
    | some (j, []) => some j
    | _ => none
  | none => none

/-! ## The JSON tree of a batch (the Python dict the script builds) -/

/-- JSON tree of a cell value.  A `num` value's mantissa is recovered from the
rational: every float the script stores satisfies `py_round2 q = q`, i.e. it is
an integer multiple of `1/100`. -/
def CellValue.toJson : CellValue → Json
  | .str s => .str s
  | .num q => .num (roundHalfEven (100 * q))
  | .int n => .jint n
  | .bool b => .jbool b

/-- JSON tree of one change dict, fields in source order. -/
def Change.toJson (c : Change) : Json :=
  .obj (.cons (pystr "row") (.jint c.row)
    (.cons (pystr "column") (.jint c.column)
      (.cons (pystr "newValue") c.newValue.toJson
        (.cons (pystr "dataType") (.str c.dataType) .nil))))

/-- JSON list of the changes. -/
def changesToJson : List Change → JsonList
  | [] => .nil
  | c :: cs => .cons c.toJson (changesToJson cs)

/-- JSON tree of the batch dict, fields in source order. -/
def UpdateBatch.toJson (b : UpdateBatch) : Json :=
  .obj (.cons (pystr "batchId") (.str b.batchId)
    (.cons (pystr "gridId") (.str b.gridId)
      (.cons (pystr "eventType") (.str b.eventType)
        (.cons (pystr "changes") (.arr (changesToJson b.changes))
          (.cons (pystr "timestamp") (.jint b.timestamp) .nil)))))

/-! ## Control flow of `main()` (claims about cleanup and exception escape)

The source wraps connection setup and the send loop in
`try / except KeyboardInterrupt / except Exception / finally`, with the
`finally` block running `producer.close()` inside `try: ... except: pass`.
The model makes the exception plumbing explicit:

* `PExn` is the kind of exception an operation can raise: `ki` is
  `KeyboardInterrupt`, `exc` is any `Exception`-derived error (the kinds the
  operations in the loop — broker sends, `time.sleep`, `print` — raise).
* A `LoopEnv` says, for each loop iteration, whether (and at which operation)
  an exception occurs, whether creating the producer fails, and whether
  `close()` itself fails.
* Because the `while True` loop can only end by an exception, the body
  interpreter returns the exception that terminated it (or `none` of the
  `Option` when the given fuel ran out with the loop still going, modelling a
  still-running process).
-/

/-- Exception kinds raisable by the script's operations. -/
inductive PExn where
  | ki
  | exc
deriving DecidableEq

/-- The operations of one loop iteration, in source order:
message construction, `send`, `flush`, the `print` block, `time.sleep`. -/
inductive OpPoint where
  | synth
  | send
  | flush
  | log
  | sleep
deriving DecidableEq

/-- Scheduler of exceptional events for a run of `main()`. -/
structure LoopEnv where
  createFail : Option PExn
  iterFail : Nat → Option (OpPoint × PExn)
  closeFail : Bool

/-- State tracked by the `main()` model: whether the name `producer` is bound
(it is not when `create_producer()` itself raised) and how many times
`producer.close()` has been invoked. -/
structure MState where
  producerBound : Bool
  closeCalls : Nat
deriving DecidableEq

/-- The `while True` loop from iteration `i` on: it exits only when some
operation raises, returning that exception; `none` means the fuel ran out
with the loop still spinning. -/
def runLoop (env : LoopEnv) : Nat → Nat → MState → Option (PExn × MState)
  | 0, _, _ => none
  | fuel + 1, i, s =>
    match env.iterFail i with
    | some (_, e) => some (e, s)
    | none => runLoop env fuel (i + 1) s

/-- The body of the outer `try`: bind `producer` (unless `create_producer()`
raises) and enter the loop.  The body can never finish normally. -/
def runBody (env : LoopEnv) (fuel : Nat) (s : MState) : Option (PExn × MState) :=
  match env.createFail with
  | some e => some (e, s)
  | none => runLoop env fuel 0 { s with producerBound := true }

/-- Does `except KeyboardInterrupt` or `except Exception` catch `e`?  Both
handler clauses only print, so catching is all that matters. -/
def handlerCatches : PExn → Bool
  | .ki => true
  | .exc => true

/-- The `finally` block: `try: producer.close() ... except: pass`.  When
`producer` is unbound the name lookup raises `NameError` before any close
happens; when `close()` itself raises, the call still occurred.  Either way
the bare `except` swallows the exception, so the block always completes
normally. -/
def finallyBlock (s : MState) : MState :=
  if s.producerBound then { s with closeCalls := s.closeCalls + 1 } else s

/-- `main()`: run the body; apply the handlers; run the `finally` block; an
exception escapes only if no handler caught it.  `none` models a run still in
progress after `fuel` iterations. -/
def pyMain (env : LoopEnv) (fuel : Nat) : Option (Option PExn × MState) :=
  match runBody env fuel ⟨false, 0⟩ with
  | none => none
  | some (e, s) =>
    some (if handlerCatches e then none else some e, finallyBlock s)

/-! ## Predicates and concrete runs used by the verification -/

/-- The continuation after a serialized value inside JSON output: nothing, or
a separator/closer.  Number parsing is unambiguous under this condition. -/
def Delim : List Char → Prop
  | [] => True
  | c :: _ => c = ',' ∨ c = ']' ∨ c = '}'

/-- The head of `rest` is not a digit. -/
def NotDigitStart : List Char → Prop
  | [] => True
  | c :: _ => isDigitC c = false

/-- Every character has a code point below 128. -/
def AllAscii (cs : List Char) : Prop := ∀ c ∈ cs, c.toNat < 128

instance (cs : List Char) : Decidable (AllAscii cs) := by
  unfold AllAscii; exact List.decidableBAll _ cs

/-- The value/tag coupling of a synthesized `Change`, exactly one case per
`dataType` branch of the source. -/
def ChangeValOk (c : Change) : Prop :=
  (c.dataType = pystr "string" ∧ ∃ k : Int, 1000 ≤ k ∧ k ≤ 9999 ∧
    c.newValue = CellValue.str (pystr "Updated_" ++ intToChars k)) ∨
  (c.dataType = pystr "number" ∧ ∃ q : ℚ, 1 ≤ q ∧ q < 1000 ∧
    c.newValue = CellValue.num (py_round2 q)) ∨
  (c.dataType = pystr "integer" ∧ ∃ k : Int, 1 ≤ k ∧ k ≤ 1000 ∧
    c.newValue = CellValue.int k) ∨
  (c.dataType = pystr "boolean" ∧ ∃ b : Bool, c.newValue = CellValue.bool b) ∨
  (c.dataType = pystr "timestamp" ∧ ∃ t : Nat, c.newValue = CellValue.int (t : Int))

/-- The environment part of the state is untouched and the cursors only move
forward. -/
def StepsState (s s' : PyState) : Prop :=
  s'.rand = s.rand ∧ s'.clock = s.clock ∧ s.rpos ≤ s'.rpos ∧ s.cpos ≤ s'.cpos

/-- The shape coupling C1 asserts between the `dataType` tag and the runtime
type of `newValue`: string/float/integer/boolean/integer-timestamp. -/
inductive TypeMatches : List Char → CellValue → Prop where
  | str (s : List Char) : TypeMatches (pystr "string") (CellValue.str s)
  | number (q : ℚ) : TypeMatches (pystr "number") (CellValue.num q)
  | integer (n : Int) : TypeMatches (pystr "integer") (CellValue.int n)
  | boolean (b : Bool) : TypeMatches (pystr "boolean") (CellValue.bool b)
  | timestamp (n : Int) : TypeMatches (pystr "timestamp") (CellValue.int n)

def wRand0 : Nat → Nat := fun _ => 0

def wClockId : Nat → Nat := fun i => i

def wState : PyState := ⟨wRand0, 0, wClockId, 0⟩

def wBatch : UpdateBatch :=
  { batchId := pystr "batch_0_1000"
  , gridId := pystr "user1_view1"
  , eventType := pystr "CELL_UPDATE"
  , changes := [{ row := 0, column := 0
                , newValue := CellValue.str (pystr "Updated_1000")
                , dataType := pystr "string" }]
  , timestamp := 1 }

def wOut : PyState := ⟨wRand0, 5, wClockId, 2⟩

def w2Out : PyState := ⟨wRand0, 6, wClockId, 2⟩

def cRand3 : Nat → Nat := fun i => if i = 1 then 1 else 0

def cState3 : PyState := ⟨cRand3, 0, fun _ => 0, 0⟩

/-- Two successive batches of a run whose wall clock is stalled (and whose
random draws repeat). -/
def c3run : Option (UpdateBatch × UpdateBatch) :=
  match mainMessage cState3 with
  | some (b1, s1) =>
    match mainMessage s1 with
    | some (b2, _) => some (b1, b2)
    | none => none
  | none => none

def c3b1 : UpdateBatch :=
  { batchId := pystr "batch_0_1000"
  , gridId := pystr "user1_view1"
  , eventType := pystr "CELL_UPDATE"
  , changes := [{ row := 1, column := 0
                , newValue := CellValue.str (pystr "Updated_1000")
                , dataType := pystr "string" }]
  , timestamp := 0 }

def c3b2 : UpdateBatch :=
  { batchId := pystr "batch_0_1000"
  , gridId := pystr "user1_view1"
  , eventType := pystr "CELL_UPDATE"
  , changes := [{ row := 0, column := 0
                , newValue := CellValue.str (pystr "Updated_1000")
                , dataType := pystr "string" }]
  , timestamp := 0 }

def c3amState : PyState := ⟨wRand0, 0, wClockId, 0⟩

def c3amB2 : UpdateBatch :=
  { batchId := pystr "batch_2_1000"
  , gridId := pystr "user1_view1"
  , eventType := pystr "CELL_UPDATE"
  , changes := [{ row := 0, column := 0
                , newValue := CellValue.str (pystr "Updated_1000")
                , dataType := pystr "string" }]
  , timestamp := 3 }

def c3amOut2 : PyState := ⟨wRand0, 12, wClockId, 4⟩

def env0 : LoopEnv :=
  ⟨none, fun i => if i = 0 then some (OpPoint.sleep, PExn.ki) else none, false⟩

def c8Rand : Nat → Nat := fun i => if i = 2 then 2 else 0

def c8State : PyState := ⟨c8Rand, 0, wClockId, 0⟩

def c8Batch : UpdateBatch :=
  { batchId := pystr "batch_0_1000"
  , gridId := pystr "user1_view1"
  , eventType := pystr "CELL_UPDATE"
  , changes := [{ row := 0, column := 0
                , newValue := CellValue.int 1
                , dataType := pystr "integer" }]
  , timestamp := 1 }

def c8Out : PyState := ⟨c8Rand, 5, wClockId, 2⟩

def cXRand : Nat → Nat := fun i => if i = 2 then 1 else 0

def cXState : PyState := ⟨cXRand, 0, wClockId, 0⟩

def cXBatch : UpdateBatch :=
  { batchId := pystr "batch_0_1000"
  , gridId := pystr "user1_view1"
  , eventType := pystr "CELL_UPDATE"
  , changes := [{ row := 0, column := 0
                  -- the drawn uniform value is 0, so this is round(1.0, 2) = 1
                , newValue := CellValue.num (py_round2
                    (1 + ((1000 : ℚ) - 1) * ((cXRand 3 % 2 ^ 53 : Nat) : ℚ) / 2 ^ 53))
                , dataType := pystr "number" }]
  , timestamp := 1 }

def cXOut : PyState := ⟨cXRand, 5, wClockId, 2⟩

/-! ## Lemmas: decimal numerals -/

theorem digitsToNat_append (xs : List Char) (c : Char) :
    digitsToNat (xs ++ [c]) = digitsToNat xs * 10 + (c.toNat - 48) := by
  simp [digitsToNat, List.foldl_append]

theorem isDigitC_digitChar {d : Nat} (h : d < 10) :
    isDigitC (digitChar d) = true := by
  interval_cases d <;> decide

theorem toNat_digitChar {d : Nat} (h : d < 10) : (digitChar d).toNat = 48 + d := by
  interval_cases d <;> decide

theorem natToCharsAux_digits :
    ∀ fuel n, n < fuel → ∀ c ∈ natToCharsAux fuel n, isDigitC c = true := by
  intro fuel
  induction fuel with
  | zero => intro n hn; omega
  | succ fuel ih =>
    intro n hn c hc
    by_cases h10 : n < 10
    · simp [natToCharsAux, h10] at hc
      subst hc; exact isDigitC_digitChar h10
    · simp only [natToCharsAux, if_neg h10, List.mem_append, List.mem_singleton] at hc
      rcases hc with hc | hc
      · exact ih (n / 10) (by omega) c hc
      · subst hc; exact isDigitC_digitChar (Nat.mod_lt _ (by omega))

theorem natToCharsAux_ne_nil :
    ∀ fuel n, n < fuel → natToCharsAux fuel n ≠ [] := by
  intro fuel n hn
  cases fuel with
  | zero => omega
  | succ fuel =>
    by_cases h10 : n < 10 <;> simp [natToCharsAux, h10]

theorem natToCharsAux_inv :
    ∀ fuel n, n < fuel → digitsToNat (natToCharsAux fuel n) = n := by
  intro fuel
  induction fuel with
  | zero => intro n hn; omega
  | succ fuel ih =>
    intro n hn
    by_cases h10 : n < 10
    · simp [natToCharsAux, h10, digitsToNat, toNat_digitChar h10]
    · simp only [natToCharsAux, if_neg h10, digitsToNat_append,
        ih (n / 10) (by omega), toNat_digitChar (Nat.mod_lt n (by omega))]
      omega

theorem digitsToNat_natToChars (n : Nat) : digitsToNat (natToChars n) = n :=
  natToCharsAux_inv (n + 1) n (Nat.lt_succ_self n)

theorem natToChars_inj {a b : Nat} (h : natToChars a = natToChars b) : a = b := by
  have := digitsToNat_natToChars a
  rw [h, digitsToNat_natToChars] at this
  omega

theorem natToChars_digits {n : Nat} : ∀ c ∈ natToChars n, isDigitC c = true :=
  natToCharsAux_digits (n + 1) n (Nat.lt_succ_self n)

theorem natToChars_ne_nil (n : Nat) : natToChars n ≠ [] :=
  natToCharsAux_ne_nil (n + 1) n (Nat.lt_succ_self n)

theorem natToCharsAux_length_pow :
    ∀ fuel n k, n < fuel → 10 ^ k ≤ n → n < 10 ^ (k + 1) →
      (natToCharsAux fuel n).length = k + 1 := by
  intro fuel
  induction fuel with
  | zero => intro n k hn; omega
  | succ fuel ih =>
    intro n k hn hlo hhi
    by_cases h10 : n < 10
    · have hk : k = 0 := by
        by_contra hk0
        have : 10 ^ 1 ≤ 10 ^ k := Nat.pow_le_pow_right (by omega) (by omega)
        simp at this; omega
      subst hk; simp [natToCharsAux, h10]
    · have hk : k ≠ 0 := by
        intro hk0; subst hk0; simp at hhi; omega
      obtain ⟨k', rfl⟩ : ∃ k', k = k' + 1 := ⟨k - 1, by omega⟩
      have hlo' : 10 ^ k' ≤ n / 10 := by
        rw [Nat.le_div_iff_mul_le (by omega)]
        calc 10 ^ k' * 10 = 10 ^ (k' + 1) := by ring
          _ ≤ n := hlo
      have hhi' : n / 10 < 10 ^ (k' + 1) := by
        rw [Nat.div_lt_iff_lt_mul (by omega)]
        calc n < 10 ^ (k' + 1 + 1) := hhi
          _ = 10 ^ (k' + 1) * 10 := by ring
      simp only [natToCharsAux, if_neg h10, List.length_append, List.length_singleton]
      rw [ih (n / 10) k' (by omega) hlo' hhi']

theorem natToChars_length_four {r : Nat} (h1 : 1000 ≤ r) (h2 : r ≤ 9999) :
    (natToChars r).length = 4 :=
  natToCharsAux_length_pow (r + 1) r 3 (Nat.lt_succ_self r)
    (by norm_num; omega) (by norm_num; omega)

/-! ## Lemmas: character classes and scanning -/

theorem isDigitC_ne {c : Char} (h : isDigitC c = true) :
    c ≠ '"' ∧ c ≠ 't' ∧ c ≠ 'f' ∧ c ≠ '[' ∧ c ≠ '{' ∧ c ≠ ']' ∧ c ≠ '}' ∧
      c ≠ '-' ∧ c ≠ '.' ∧ c ≠ ',' := by
  refine ⟨?_, ?_, ?_, ?_, ?_, ?_, ?_, ?_, ?_, ?_⟩ <;>
    (intro he; rw [he] at h; exact absurd h (by decide))

theorem safeChar_ne_quote {c : Char} (h : SafeChar c) : c ≠ '"' := by
  intro he; rw [he] at h; exact absurd h (by decide)

theorem delim_not_digit_start {rest : List Char} (h : Delim rest) :
    rest.head? = none ∨ ∀ c, rest.head? = some c → isDigitC c = false := by
  cases rest with
  | nil => left; rfl
  | cons c r =>
    right; intro c' hc'
    simp only [List.head?_cons, Option.some_inj] at hc'
    subst hc'
    rcases h with h | h | h <;> (rw [h]; decide)

theorem spanNotQuote_safe :
    ∀ (s : List Char) (rest : List Char), SafeStr s →
      spanNotQuote (s ++ '"' :: rest) = some (s, rest) := by
  intro s
  induction s with
  | nil => intro rest _; simp [spanNotQuote]
  | cons c t ih =>
    intro rest hs
    have hc : c ≠ '"' := safeChar_ne_quote (hs c (by simp))
    have ht : SafeStr t := fun c' hc' => hs c' (by simp [hc'])
    simp only [List.cons_append, spanNotQuote, if_neg hc, List.append_eq, ih rest ht]

theorem delim_notDigitStart {rest : List Char} (h : Delim rest) :
    NotDigitStart rest := by
  cases rest with
  | nil => trivial
  | cons c r =>
    simp only [Delim] at h
    simp only [NotDigitStart]
    rcases h with h | h | h <;> (subst h; decide)

theorem spanDigits_exact :
    ∀ (ds rest : List Char), (∀ c ∈ ds, isDigitC c = true) → NotDigitStart rest →
      spanDigits (ds ++ rest) = (ds, rest) := by
  intro ds
  induction ds with
  | nil =>
    intro rest _ hr
    cases rest with
    | nil => rfl
    | cons c r => simp only [NotDigitStart] at hr; simp [spanDigits, hr]
  | cons d t ih =>
    intro rest hd hr
    have h1 : isDigitC d = true := hd d (by simp)
    have h2 : ∀ c ∈ t, isDigitC c = true := fun c hc => hd c (by simp [hc])
    simp only [List.cons_append, spanDigits, h1, if_pos, List.append_eq,
      ih rest h2 hr]

theorem delim_head_ne_dot {rest : List Char} (h : Delim rest) :
    rest.head? ≠ some '.' := by
  cases rest with
  | nil => simp
  | cons c r =>
    simp only [List.head?_cons, ne_eq, Option.some_inj]
    rcases h with h | h | h <;> (subst h; decide)

theorem parseUnsignedNumber_nat (m : Nat) (rest : List Char) (h : Delim rest) :
    parseUnsignedNumber (natToChars m ++ rest) = some (.jint m, rest) := by
  have hspan := spanDigits_exact (natToChars m) rest
    (fun c hc => natToChars_digits c hc) (delim_notDigitStart h)
  simp only [parseUnsignedNumber, hspan, if_neg (natToChars_ne_nil m),
    if_neg (delim_head_ne_dot h), digitsToNat_natToChars]

theorem natToChars_head_digit (m : Nat) :
    ∃ c t, natToChars m = c :: t ∧ isDigitC c = true := by
  obtain ⟨c, t, h⟩ := List.exists_cons_of_ne_nil (natToChars_ne_nil m)
  exact ⟨c, t, h, natToChars_digits c (by rw [h]; simp)⟩

theorem parseNumber_nat (m : Nat) (rest : List Char) (h : Delim rest) :
    parseNumber (natToChars m ++ rest) = some (.jint m, rest) := by
  obtain ⟨c, t, heq, hdig⟩ := natToChars_head_digit m
  have hne : ((natToChars m ++ rest).head? ≠ some '-') := by
    rw [heq]; simpa using (isDigitC_ne hdig).2.2.2.2.2.2.2.1
  simp only [parseNumber, if_neg hne, parseUnsignedNumber_nat m rest h]

theorem parseNumber_int (n : Int) (rest : List Char) (h : Delim rest) :
    parseNumber (intToChars n ++ rest) = some (.jint n, rest) := by
  by_cases hneg : n < 0
  · simp only [intToChars, if_pos hneg, List.cons_append]
    have hh : ((('-' :: (natToChars (-n).toNat ++ rest)) : List Char).head? = some '-') := rfl
    simp only [parseNumber, hh, if_pos, List.tail_cons,
      parseUnsignedNumber_nat (-n).toNat rest h, negJson]
    have he : -(((-n).toNat : Int)) = n := by omega
    rw [he]
  · simp only [intToChars, if_neg hneg, parseNumber_nat _ rest h]
    have he : ((n.toNat : Int)) = n := by omega
    rw [he]


theorem parseUnsignedNumber_frac (a x y : Nat) (hx : x < 10) (hy : y < 10)
    (rest : List Char) :
    parseUnsignedNumber (natToChars a ++ '.' :: digitChar x :: digitChar y :: rest) =
      some (.num ((a : Int) * 100 + (x : Int) * 10 + (y : Int)), rest) := by
  have hnds : NotDigitStart ('.' :: digitChar x :: digitChar y :: rest) := by
    simp only [NotDigitStart]; decide
  have hspan := spanDigits_exact (natToChars a) _
    (fun c hc => natToChars_digits c hc) hnds
  simp only [parseUnsignedNumber, hspan, if_neg (natToChars_ne_nil a),
    List.head?_cons, if_pos rfl, List.tail_cons, isDigitC_digitChar hx,
    isDigitC_digitChar hy, Bool.and_self, if_pos, toNat_digitChar hx,
    toNat_digitChar hy, digitsToNat_natToChars]
  have h1 : 48 + x - 48 = x := by omega
  have h2 : 48 + y - 48 = y := by omega
  rw [h1, h2]

theorem parseNumber_numToChars (m : Int) (rest : List Char) :
    parseNumber (numToChars m ++ rest) = some (.num m, rest) := by
  by_cases hneg : m < 0
  · have hx : (-m).toNat / 10 % 10 < 10 := Nat.mod_lt _ (by omega)
    have hy : (-m).toNat % 10 < 10 := Nat.mod_lt _ (by omega)
    simp only [numToChars, if_pos hneg, List.cons_append]
    simp only [parseNumber, List.head?_cons]
    rw [if_pos trivial]
    simp only [List.tail_cons]
    have harr : (natToChars ((-m).toNat / 100) ++
        '.' :: [digitChar ((-m).toNat / 10 % 10), digitChar ((-m).toNat % 10)]) ++ rest =
        natToChars ((-m).toNat / 100) ++
          '.' :: digitChar ((-m).toNat / 10 % 10) :: digitChar ((-m).toNat % 10) :: rest := by
      simp [List.append_assoc]
    rw [harr,
      parseUnsignedNumber_frac ((-m).toNat / 100) ((-m).toNat / 10 % 10) ((-m).toNat % 10) hx hy rest]
    simp only [negJson, Option.some_inj, Prod.mk.injEq, Json.num.injEq, and_true]
    omega
  · have hx : m.toNat / 10 % 10 < 10 := Nat.mod_lt _ (by omega)
    have hy : m.toNat % 10 < 10 := Nat.mod_lt _ (by omega)
    simp only [numToChars, if_neg hneg]
    have harr : (natToChars (m.toNat / 100) ++
        '.' :: [digitChar (m.toNat / 10 % 10), digitChar (m.toNat % 10)]) ++ rest =
        natToChars (m.toNat / 100) ++
          '.' :: digitChar (m.toNat / 10 % 10) :: digitChar (m.toNat % 10) :: rest := by
      simp [List.append_assoc]
    rw [harr]
    obtain ⟨c, t, heq, hdig⟩ := natToChars_head_digit (m.toNat / 100)
    have hne : ((natToChars (m.toNat / 100) ++ '.' :: digitChar (m.toNat / 10 % 10) ::
        digitChar (m.toNat % 10) :: rest).head? ≠ some '-') := by
      rw [heq]
      simp only [List.cons_append, List.head?_cons, ne_eq, Option.some_inj]
      exact (isDigitC_ne hdig).2.2.2.2.2.2.2.1
    simp only [parseNumber, if_neg hne]
    rw [parseUnsignedNumber_frac (m.toNat / 100) (m.toNat / 10 % 10) (m.toNat % 10) hx hy rest]
    simp only [Option.some_inj, Prod.mk.injEq, Json.num.injEq, and_true]
    omega

/-! ## Lemmas: the head character of a serialized value -/

/-- The head of a number's numeral: a minus sign or a digit. -/
theorem intToChars_head (n : Int) :
    ∃ c t, intToChars n = c :: t ∧ (c = '-' ∨ isDigitC c = true) := by
  by_cases hneg : n < 0
  · exact ⟨'-', natToChars (-n).toNat, by simp [intToChars, hneg], Or.inl rfl⟩
  · obtain ⟨c, t, heq, hdig⟩ := natToChars_head_digit n.toNat
    exact ⟨c, t, by simp [intToChars, hneg, heq], Or.inr hdig⟩

theorem numToChars_head (m : Int) :
    ∃ c t, numToChars m = c :: t ∧ (c = '-' ∨ isDigitC c = true) := by
  by_cases hneg : m < 0
  · refine ⟨'-', natToChars ((-m).toNat / 100) ++
      '.' :: [digitChar ((-m).toNat / 10 % 10), digitChar ((-m).toNat % 10)],
      by simp [numToChars, hneg], Or.inl rfl⟩
  · obtain ⟨c, t, heq, hdig⟩ := natToChars_head_digit (m.toNat / 100)
    refine ⟨c, t ++ '.' :: [digitChar (m.toNat / 10 % 10), digitChar (m.toNat % 10)],
      ?_, Or.inr hdig⟩
    simp [numToChars, hneg, heq]

/-- A number's head character is none of the characters the value dispatcher
tests for, and no closer. -/
theorem number_head_ne {c : Char} (h : c = '-' ∨ isDigitC c = true) :
    c ≠ '"' ∧ c ≠ 't' ∧ c ≠ 'f' ∧ c ≠ '[' ∧ c ≠ '{' ∧ c ≠ ']' ∧ c ≠ '}' := by
  rcases h with h | h
  · subst h
    refine ⟨by decide, by decide, by decide, by decide, by decide, by decide, by decide⟩
  · obtain ⟨h1, h2, h3, h4, h5, h6, h7, _, _, _⟩ := isDigitC_ne h
    exact ⟨h1, h2, h3, h4, h5, h6, h7⟩

/-- Every serialized value starts with a character, and that character is
neither `']'` nor `'}'`. -/
theorem dumpsVal_head (j : Json) :
    ∃ c t, dumpsVal j = c :: t ∧ c ≠ ']' ∧ c ≠ '}' := by
  cases j with
  | str s => exact ⟨'"', s ++ ['"'], rfl, by decide, by decide⟩
  | jint n =>
    obtain ⟨c, t, heq, hc⟩ := intToChars_head n
    obtain ⟨_, _, _, _, _, h6, h7⟩ := number_head_ne hc
    exact ⟨c, t, by simp [dumpsVal, heq], h6, h7⟩
  | num m =>
    obtain ⟨c, t, heq, hc⟩ := numToChars_head m
    obtain ⟨_, _, _, _, _, h6, h7⟩ := number_head_ne hc
    exact ⟨c, t, by simp [dumpsVal, heq], h6, h7⟩
  | jbool b =>
    cases b
    · exact ⟨'f', pystr "alse", rfl, by decide, by decide⟩
    · exact ⟨'t', pystr "rue", rfl, by decide, by decide⟩
  | arr xs => exact ⟨'[', dumpsElems xs ++ [']'], rfl, by decide, by decide⟩
  | obj kvs => exact ⟨'{', dumpsMembers kvs ++ ['}'], rfl, by decide, by decide⟩

/-- A nonempty serialized element list starts like its first value. -/
theorem dumpsElems_cons_head (j : Json) (tl : JsonList) :
    ∃ c t, dumpsElems (.cons j tl) = c :: t ∧ c ≠ ']' ∧ c ≠ '}' := by
  obtain ⟨c, t, heq, h1, h2⟩ := dumpsVal_head j
  cases tl with
  | nil => exact ⟨c, t, by simp [dumpsElems, heq], h1, h2⟩
  | cons j' tl' =>
    exact ⟨c, t ++ ',' :: ' ' :: dumpsElems (.cons j' tl'),
      by simp [dumpsElems, heq], h1, h2⟩

/-- A nonempty serialized member list starts with `'"'`. -/
theorem dumpsMembers_cons_head (k : List Char) (v : Json) (tl : JsonObj) :
    ∃ t, dumpsMembers (.cons k v tl) = '"' :: t := by
  cases tl with
  | nil => exact ⟨k ++ '"' :: ':' :: ' ' :: dumpsVal v, rfl⟩
  | cons k' v' tl' =>
    exact ⟨(k ++ '"' :: ':' :: ' ' :: dumpsVal v) ++
      ',' :: ' ' :: dumpsMembers (.cons k' v' tl'), rfl⟩


/-! ## The round-trip: `parse (dumps j ++ rest) = some (j, rest)` -/

theorem jsize_pos (j : Json) : 1 ≤ jsize j := by
  cases j <;> simp [jsize]

theorem delim_comma (x : List Char) : Delim (',' :: x) := Or.inl rfl

theorem delim_rbracket (x : List Char) : Delim (']' :: x) := Or.inr (Or.inl rfl)

theorem delim_rbrace (x : List Char) : Delim ('}' :: x) := Or.inr (Or.inr rfl)

theorem parse_dumps (fuel : Nat) :
    (∀ j rest, JsonWf j → jsize j ≤ fuel → Delim rest →
      parseVal fuel (dumpsVal j ++ rest) = some (j, rest)) ∧
    (∀ j tl rest, JsonListWf (JsonList.cons j tl) →
      jsizeL (JsonList.cons j tl) ≤ fuel →
      parseElems fuel (dumpsElems (JsonList.cons j tl) ++ ']' :: rest) =
        some (JsonList.cons j tl, rest)) ∧
    (∀ k v tl rest, JsonObjWf (JsonObj.cons k v tl) →
      jsizeO (JsonObj.cons k v tl) ≤ fuel →
      parseMembers fuel (dumpsMembers (JsonObj.cons k v tl) ++ '}' :: rest) =
        some (JsonObj.cons k v tl, rest)) := by
  induction fuel with
  | zero =>
    refine ⟨fun j rest _ hs _ => absurd hs (by have := jsize_pos j; omega),
      fun j tl rest _ hs => absurd hs (by simp only [jsizeL]; omega),
      fun k v tl rest _ hs => absurd hs (by simp only [jsizeO]; omega)⟩
  | succ fuel ih =>
    obtain ⟨ihV, ihE, ihM⟩ := ih
    refine ⟨?_, ?_, ?_⟩
    · intro j rest hwf hsz hrest
      cases j with
      | str s =>
        simp only [JsonWf] at hwf
        have harr : dumpsVal (.str s) ++ rest = '"' :: (s ++ '"' :: rest) := by
          simp [dumpsVal]
        rw [harr]
        simp only [parseVal]
        rw [if_pos trivial, spanNotQuote_safe s rest hwf]
      | jint n =>
        obtain ⟨c, t, heq, hc⟩ := intToChars_head n
        obtain ⟨h1, h2, h3, h4, h5, _, _⟩ := number_head_ne hc
        have harr : dumpsVal (.jint n) ++ rest = c :: (t ++ rest) := by
          simp [dumpsVal, heq]
        rw [harr]
        simp only [parseVal]
        rw [if_neg h1, if_neg h2, if_neg h3, if_neg h4, if_neg h5]
        have hback : c :: (t ++ rest) = intToChars n ++ rest := by
          rw [← List.cons_append, ← heq]
        rw [hback]
        exact parseNumber_int n rest hrest
      | num m =>
        obtain ⟨c, t, heq, hc⟩ := numToChars_head m
        obtain ⟨h1, h2, h3, h4, h5, _, _⟩ := number_head_ne hc
        have harr : dumpsVal (.num m) ++ rest = c :: (t ++ rest) := by
          simp [dumpsVal, heq]
        rw [harr]
        simp only [parseVal]
        rw [if_neg h1, if_neg h2, if_neg h3, if_neg h4, if_neg h5]
        have hback : c :: (t ++ rest) = numToChars m ++ rest := by
          rw [← List.cons_append, ← heq]
        rw [hback]
        exact parseNumber_numToChars m rest
      | jbool b =>
        cases b
        · have harr : dumpsVal (.jbool false) ++ rest =
              'f' :: 'a' :: 'l' :: 's' :: 'e' :: rest := rfl
          rw [harr]
          simp only [parseVal]
          rw [if_neg (by decide), if_neg (by decide), if_pos trivial]
        · have harr : dumpsVal (.jbool true) ++ rest =
              't' :: 'r' :: 'u' :: 'e' :: rest := rfl
          rw [harr]
          simp only [parseVal]
          rw [if_neg (by decide), if_pos trivial]
      | arr xs =>
        cases xs with
        | nil =>
          have harr : dumpsVal (.arr .nil) ++ rest = '[' :: ']' :: rest := rfl
          rw [harr]
          simp only [parseVal]
          rw [if_neg (by decide), if_neg (by decide), if_neg (by decide),
            if_pos trivial, if_pos (show ((']' :: rest).head? = some ']') from rfl)]
          rfl
        | cons j tl =>
          simp only [JsonWf] at hwf
          simp only [jsize] at hsz
          obtain ⟨c, t, heq, hne1, _⟩ := dumpsElems_cons_head j tl
          have harr : dumpsVal (.arr (.cons j tl)) ++ rest =
              '[' :: (dumpsElems (.cons j tl) ++ ']' :: rest) := by
            simp [dumpsVal]
          rw [harr]
          simp only [parseVal]
          rw [if_neg (by decide), if_neg (by decide), if_neg (by decide), if_pos trivial]
          have hhd : ¬((dumpsElems (.cons j tl) ++ ']' :: rest).head? = some ']') := by
            rw [heq]
            simp only [List.cons_append, List.head?_cons, Option.some_inj]
            exact hne1
          rw [if_neg hhd, ihE j tl rest hwf (by omega)]
      | obj kvs =>
        cases kvs with
        | nil =>
          have harr : dumpsVal (.obj .nil) ++ rest = '{' :: '}' :: rest := rfl
          rw [harr]
          simp only [parseVal]
          rw [if_neg (by decide), if_neg (by decide), if_neg (by decide),
            if_neg (by decide), if_pos trivial,
            if_pos (show (('}' :: rest).head? = some '}') from rfl)]
          rfl
        | cons k v tl =>
          simp only [JsonWf] at hwf
          simp only [jsize] at hsz
          obtain ⟨t, heq⟩ := dumpsMembers_cons_head k v tl
          have harr : dumpsVal (.obj (.cons k v tl)) ++ rest =
              '{' :: (dumpsMembers (.cons k v tl) ++ '}' :: rest) := by
            simp [dumpsVal]
          rw [harr]
          simp only [parseVal]
          rw [if_neg (by decide), if_neg (by decide), if_neg (by decide),
            if_neg (by decide), if_pos trivial]
          have hhd : ¬((dumpsMembers (.cons k v tl) ++ '}' :: rest).head? = some '}') := by
            rw [heq]
            simp only [List.cons_append, List.head?_cons, Option.some_inj]
            decide
          rw [if_neg hhd, ihM k v tl rest hwf (by omega)]
    · intro j tl rest hwf hsz
      simp only [JsonListWf] at hwf
      obtain ⟨hwfj, hwftl⟩ := hwf
      cases tl with
      | nil =>
        have harr : dumpsElems (.cons j .nil) ++ ']' :: rest =
            dumpsVal j ++ ']' :: rest := by simp [dumpsElems]
        rw [harr]
        simp only [parseElems,
          ihV j (']' :: rest) hwfj (by simp only [jsizeL] at hsz; omega)
            (delim_rbracket rest)]
      | cons j' tl' =>
        have harr : dumpsElems (.cons j (.cons j' tl')) ++ ']' :: rest =
            dumpsVal j ++ ',' :: ' ' :: (dumpsElems (.cons j' tl') ++ ']' :: rest) := by
          simp [dumpsElems, List.append_assoc]
        rw [harr]
        simp only [parseElems,
          ihV j (',' :: ' ' :: (dumpsElems (.cons j' tl') ++ ']' :: rest)) hwfj
            (by simp only [jsizeL] at hsz; omega) (delim_comma _),
          ihE j' tl' rest hwftl (by simp only [jsizeL] at hsz ⊢; omega)]
    · intro k v tl rest hwf hsz
      simp only [JsonObjWf] at hwf
      obtain ⟨hk, hwfv, hwftl⟩ := hwf
      cases tl with
      | nil =>
        have harr : dumpsMembers (.cons k v .nil) ++ '}' :: rest =
            '"' :: (k ++ '"' :: ':' :: ' ' :: (dumpsVal v ++ '}' :: rest)) := by
          simp [dumpsMembers, List.append_assoc]
        rw [harr]
        simp only [parseMembers, spanNotQuote_safe k _ hk,
          ihV v ('}' :: rest) hwfv (by simp only [jsizeO] at hsz; omega)
            (delim_rbrace rest)]
      | cons k' v' tl' =>
        have harr : dumpsMembers (.cons k v (.cons k' v' tl')) ++ '}' :: rest =
            '"' :: (k ++ '"' :: ':' :: ' ' ::
              (dumpsVal v ++ ',' :: ' ' ::
                (dumpsMembers (.cons k' v' tl') ++ '}' :: rest))) := by
          simp [dumpsMembers, List.append_assoc]
        rw [harr]
        simp only [parseMembers, spanNotQuote_safe k _ hk,
          ihV v (',' :: ' ' :: (dumpsMembers (.cons k' v' tl') ++ '}' :: rest)) hwfv
            (by simp only [jsizeO] at hsz; omega) (delim_comma _),
          ihM k' v' tl' rest hwftl (by simp only [jsizeO] at hsz ⊢; omega)]

/-! ## Size is bounded by output length, and output is ASCII -/

theorem jsize_le_length (n : Nat) :
    (∀ j, jsize j ≤ n → jsize j ≤ (dumpsVal j).length) ∧
    (∀ xs, jsizeL xs ≤ n → jsizeL xs ≤ (dumpsElems xs).length + 1) ∧
    (∀ kvs, jsizeO kvs ≤ n → jsizeO kvs ≤ (dumpsMembers kvs).length + 1) := by
  induction n with
  | zero =>
    refine ⟨fun j hs => absurd hs (by have := jsize_pos j; omega), ?_, ?_⟩
    · intro xs hs
      cases xs with
      | nil => simp [jsizeL]
      | cons j tl => exact absurd hs (by simp only [jsizeL]; omega)
    · intro kvs hs
      cases kvs with
      | nil => simp [jsizeO]
      | cons k v tl => exact absurd hs (by simp only [jsizeO]; omega)
  | succ n ih =>
    obtain ⟨ihV, ihE, ihM⟩ := ih
    refine ⟨?_, ?_, ?_⟩
    · intro j hs
      cases j with
      | str s => simp [jsize, dumpsVal]
      | jint m =>
        have h1 : 1 ≤ (intToChars m).length := by
          unfold intToChars
          split
          · simp
          · have := natToChars_ne_nil m.toNat
            have := List.length_pos.mpr this
            omega
        simp only [jsize, dumpsVal]; omega
      | num m =>
        have h1 : 1 ≤ (numToChars m).length := by
          unfold numToChars
          split
          · simp
          · have := natToChars_ne_nil (m.toNat / 100)
            have := List.length_pos.mpr this
            simp
        simp only [jsize, dumpsVal]; omega
      | jbool b => cases b <;> simp [jsize, dumpsVal, pystr]
      | arr xs =>
        have hx : jsizeL xs ≤ n := by simp only [jsize] at hs; omega
        have := ihE xs hx
        simp only [jsize, dumpsVal, List.length_cons, List.length_append,
          List.length_singleton]
        omega
      | obj kvs =>
        have hx : jsizeO kvs ≤ n := by simp only [jsize] at hs; omega
        have := ihM kvs hx
        simp only [jsize, dumpsVal, List.length_cons, List.length_append,
          List.length_singleton]
        omega
    · intro xs hs
      cases xs with
      | nil => simp [jsizeL]
      | cons j tl =>
        have hj : jsize j ≤ n := by
          simp only [jsizeL] at hs
          have := jsize_pos j
          omega
        have h1 := ihV j hj
        cases tl with
        | nil => simp only [jsizeL, dumpsElems] at *; omega
        | cons j' tl' =>
          have ht : jsizeL (JsonList.cons j' tl') ≤ n := by
            simp only [jsizeL] at hs ⊢
            have := jsize_pos j
            omega
          have h2 := ihE _ ht
          simp only [jsizeL, dumpsElems, List.length_append, List.length_cons] at *
          omega
    · intro kvs hs
      cases kvs with
      | nil => simp [jsizeO]
      | cons k v tl =>
        have hv : jsize v ≤ n := by
          simp only [jsizeO] at hs
          have := jsize_pos v
          omega
        have h1 := ihV v hv
        cases tl with
        | nil => simp only [jsizeO, dumpsMembers, List.length_cons, List.length_append] at *; omega
        | cons k' v' tl' =>
          have ht : jsizeO (JsonObj.cons k' v' tl') ≤ n := by
            simp only [jsizeO] at hs ⊢
            have := jsize_pos v
            omega
          have h2 := ihM _ ht
          simp only [jsizeO, dumpsMembers, List.length_append, List.length_cons] at *
          omega

theorem isDigitC_toNat {c : Char} (h : isDigitC c = true) :
    48 ≤ c.toNat ∧ c.toNat ≤ 57 := by
  simpa [isDigitC] using h

theorem allAscii_append {a b : List Char} (ha : AllAscii a) (hb : AllAscii b) :
    AllAscii (a ++ b) := by
  intro c hc
  rcases List.mem_append.mp hc with h | h
  · exact ha c h
  · exact hb c h

theorem allAscii_natToChars (m : Nat) : AllAscii (natToChars m) := by
  intro c hc
  have := isDigitC_toNat (natToChars_digits c hc)
  omega

theorem allAscii_intToChars (m : Int) : AllAscii (intToChars m) := by
  unfold intToChars
  split
  · intro c hc
    rcases List.mem_cons.mp hc with h | h
    · subst h; decide
    · exact allAscii_natToChars _ c h
  · exact allAscii_natToChars _

theorem allAscii_numToChars (m : Int) : AllAscii (numToChars m) := by
  have hdigits : ∀ x : Nat, x < 10 → (digitChar x).toNat < 128 := by
    intro x hx
    rw [toNat_digitChar hx]
    omega
  unfold numToChars
  split
  · intro c hc
    rcases List.mem_cons.mp hc with h | h
    · subst h; decide
    · rcases List.mem_append.mp h with h | h
      · exact allAscii_natToChars _ c h
      · rcases List.mem_cons.mp h with h | h
        · subst h; decide
        · rcases List.mem_cons.mp h with h | h
          · subst h; exact hdigits _ (Nat.mod_lt _ (by omega))
          · rcases List.mem_singleton.mp h ▸ hdigits _ (Nat.mod_lt _ (by omega)) with h'
            exact h'
  · intro c hc
    rcases List.mem_append.mp hc with h | h
    · exact allAscii_natToChars _ c h
    · rcases List.mem_cons.mp h with h | h
      · subst h; decide
      · rcases List.mem_cons.mp h with h | h
        · subst h; exact hdigits _ (Nat.mod_lt _ (by omega))
        · rcases List.mem_singleton.mp h ▸ hdigits _ (Nat.mod_lt _ (by omega)) with h'
          exact h'

theorem safeStr_ascii {s : List Char} (h : SafeStr s) : AllAscii s :=
  fun c hc => (h c hc).2.1

theorem dumps_ascii (n : Nat) :
    (∀ j, jsize j ≤ n → JsonWf j → AllAscii (dumpsVal j)) ∧
    (∀ xs, jsizeL xs ≤ n → JsonListWf xs → AllAscii (dumpsElems xs)) ∧
    (∀ kvs, jsizeO kvs ≤ n → JsonObjWf kvs → AllAscii (dumpsMembers kvs)) := by
  induction n with
  | zero =>
    refine ⟨fun j hs _ => absurd hs (by have := jsize_pos j; omega), ?_, ?_⟩
    · intro xs hs _
      cases xs with
      | nil => intro c hc; simp [dumpsElems] at hc
      | cons j tl => exact absurd hs (by simp only [jsizeL]; omega)
    · intro kvs hs _
      cases kvs with
      | nil => intro c hc; simp [dumpsMembers] at hc
      | cons k v tl => exact absurd hs (by simp only [jsizeO]; omega)
  | succ n ih =>
    obtain ⟨ihV, ihE, ihM⟩ := ih
    refine ⟨?_, ?_, ?_⟩
    · intro j hs hwf
      cases j with
      | str s =>
        simp only [JsonWf] at hwf
        simp only [dumpsVal]
        intro c hc
        rcases List.mem_cons.mp hc with h | h
        · subst h; decide
        · rcases List.mem_append.mp h with h | h
          · exact safeStr_ascii hwf c h
          · rcases List.mem_singleton.mp h with h
            subst h; decide
      | jint m => exact allAscii_intToChars m
      | num m => exact allAscii_numToChars m
      | jbool b => cases b <;> decide
      | arr xs =>
        simp only [JsonWf] at hwf
        have hx : jsizeL xs ≤ n := by simp only [jsize] at hs; omega
        simp only [dumpsVal]
        intro c hc
        rcases List.mem_cons.mp hc with h | h
        · subst h; decide
        · rcases List.mem_append.mp h with h | h
          · exact ihE xs hx hwf c h
          · rcases List.mem_singleton.mp h with h
            subst h; decide
      | obj kvs =>
        simp only [JsonWf] at hwf
        have hx : jsizeO kvs ≤ n := by simp only [jsize] at hs; omega
        simp only [dumpsVal]
        intro c hc
        rcases List.mem_cons.mp hc with h | h
        · subst h; decide
        · rcases List.mem_append.mp h with h | h
          · exact ihM kvs hx hwf c h
          · rcases List.mem_singleton.mp h with h
            subst h; decide
    · intro xs hs hwf
      cases xs with
      | nil => intro c hc; simp [dumpsElems] at hc
      | cons j tl =>
        simp only [JsonListWf] at hwf
        obtain ⟨hwfj, hwftl⟩ := hwf
        have hj : jsize j ≤ n := by
          simp only [jsizeL] at hs; omega
        cases tl with
        | nil => simpa only [dumpsElems] using ihV j hj hwfj
        | cons j' tl' =>
          have ht : jsizeL (JsonList.cons j' tl') ≤ n := by
            simp only [jsizeL] at hs ⊢
            have := jsize_pos j
            omega
          simp only [dumpsElems]
          refine allAscii_append (ihV j hj hwfj) ?_
          intro c hc
          rcases List.mem_cons.mp hc with h | h
          · subst h; decide
          · rcases List.mem_cons.mp h with h | h
            · subst h; decide
            · exact ihE _ ht hwftl c h
    · intro kvs hs hwf
      cases kvs with
      | nil => intro c hc; simp [dumpsMembers] at hc
      | cons k v tl =>
        simp only [JsonObjWf] at hwf
        obtain ⟨hk, hwfv, hwftl⟩ := hwf
        have hv : jsize v ≤ n := by
          simp only [jsizeO] at hs; omega
        have hkey : AllAscii ('"' :: (k ++ '"' :: ':' :: ' ' :: dumpsVal v)) := by
          intro c hc
          rcases List.mem_cons.mp hc with h | h
          · subst h; decide
          · rcases List.mem_append.mp h with h | h
            · exact safeStr_ascii hk c h
            · rcases List.mem_cons.mp h with h | h
              · subst h; decide
              · rcases List.mem_cons.mp h with h | h
                · subst h; decide
                · rcases List.mem_cons.mp h with h | h
                  · subst h; decide
                  · exact ihV v hv hwfv c h
        cases tl with
        | nil => simpa only [dumpsMembers] using hkey
        | cons k' v' tl' =>
          have ht : jsizeO (JsonObj.cons k' v' tl') ≤ n := by
            simp only [jsizeO] at hs ⊢
            have := jsize_pos v
            omega
          simp only [dumpsMembers]
          refine allAscii_append hkey ?_
          intro c hc
          rcases List.mem_cons.mp hc with h | h
          · subst h; decide
          · rcases List.mem_cons.mp h with h | h
            · subst h; decide
            · exact ihM _ ht hwftl c h

/-! ## UTF-8 round-trip on ASCII and the full decode of a dump -/

theorem utf8DecodeChar1_ascii (b : Nat) (hb : b < 128) (rest : List Nat) :
    utf8DecodeChar1 (b :: rest) = some (Char.ofNat b, rest) := by
  simp only [utf8DecodeChar1]
  rw [if_pos hb]

theorem utf8DecodeLoop_encode :
    ∀ (cs : List Char) (fuel : Nat), AllAscii cs →
      (utf8Encode cs).length ≤ fuel → utf8DecodeLoop fuel (utf8Encode cs) = some cs := by
  intro cs
  induction cs with
  | nil => intro fuel _ _; cases fuel <;> rfl
  | cons c t ih =>
    intro fuel h hlen
    have hc : c.toNat < 128 := h c (by simp)
    have ht : AllAscii t := fun c' hc' => h c' (by simp [hc'])
    have hch : utf8EncodeChar c = [c.toNat] := by
      simp only [utf8EncodeChar]
      rw [if_pos hc]
    have henc : utf8Encode (c :: t) = c.toNat :: utf8Encode t := by
      show utf8EncodeChar c ++ utf8Encode t = _
      rw [hch]
      rfl
    rw [henc] at hlen ⊢
    simp only [List.length_cons] at hlen
    obtain ⟨f, rfl⟩ : ∃ f, fuel = f + 1 := ⟨fuel - 1, by omega⟩
    simp only [utf8DecodeLoop, utf8DecodeChar1_ascii c.toNat hc,
      ih f ht (by omega), Char.ofNat_toNat]

theorem utf8Decode_encode_ascii (cs : List Char) (h : AllAscii cs) :
    utf8Decode (utf8Encode cs) = some cs :=
  utf8DecodeLoop_encode cs (utf8Encode cs).length h le_rfl

theorem json_loads_dumps {j : Json} (hwf : JsonWf j) :
    json_loads_bytes (value_serializer j) = some j := by
  have hsz : jsize j ≤ (dumpsVal j).length :=
    (jsize_le_length (jsize j)).1 j le_rfl
  have hascii : AllAscii (dumpsVal j) := (dumps_ascii (jsize j)).1 j le_rfl hwf
  have hparse := (parse_dumps ((dumpsVal j).length + 1)).1 j [] hwf (by omega) trivial
  rw [List.append_nil] at hparse
  simp only [json_loads_bytes, value_serializer, utf8Decode_encode_ascii _ hascii,
    hparse]

/-! ## Lemmas: the random/clock primitives -/

theorem py_randint_eq (lo hi : Int) (hle : lo ≤ hi) (s : PyState) :
    py_randint lo hi s = some (lo + (s.rand s.rpos : Int) % (hi - lo + 1),
      { s with rpos := s.rpos + 1 }) := by
  unfold py_randint nextRand
  rw [if_neg (by omega)]

theorem randint_val_bounds (lo hi : Int) (hle : lo ≤ hi) (x : Nat) :
    lo ≤ lo + (x : Int) % (hi - lo + 1) ∧ lo + (x : Int) % (hi - lo + 1) ≤ hi := by
  have h1 : 0 ≤ (x : Int) % (hi - lo + 1) := Int.emod_nonneg _ (by omega)
  have h2 : (x : Int) % (hi - lo + 1) < hi - lo + 1 := Int.emod_lt_of_pos _ (by omega)
  omega

theorem py_choice_mem {α : Type} {xs : List α} {a : α} {s s' : PyState}
    (h : py_choice xs s = some (a, s')) :
    a ∈ xs ∧ s' = { s with rpos := s.rpos + 1 } := by
  unfold py_choice nextRand at h
  simp only at h
  cases hg : xs.get? (s.rand s.rpos % xs.length) with
  | none => rw [hg] at h; cases h
  | some b =>
    rw [hg] at h
    simp only [Option.some_inj, Prod.mk.injEq] at h
    obtain ⟨rfl, rfl⟩ := h
    exact ⟨List.get?_mem hg, rfl⟩

theorem py_choice_total {α : Type} (xs : List α) (hne : xs ≠ []) (s : PyState) :
    py_choice xs s = some (xs.get ⟨s.rand s.rpos % xs.length,
      Nat.mod_lt _ (List.length_pos.mpr hne)⟩, { s with rpos := s.rpos + 1 }) := by
  unfold py_choice nextRand
  simp only
  rw [List.get?_eq_get (Nat.mod_lt _ (List.length_pos.mpr hne))]

theorem py_uniform_1_1000_bounds (x : Nat) :
    (1 : ℚ) ≤ 1 + ((1000 : ℚ) - 1) * ((x % 2 ^ 53 : Nat) : ℚ) / 2 ^ 53 ∧
      1 + ((1000 : ℚ) - 1) * ((x % 2 ^ 53 : Nat) : ℚ) / 2 ^ 53 < 1000 := by
  have h0 : (0 : ℚ) ≤ ((x % 2 ^ 53 : Nat) : ℚ) := Nat.cast_nonneg _
  have h1 : ((x % 2 ^ 53 : Nat) : ℚ) < 2 ^ 53 := by
    have := Nat.mod_lt x (show 0 < 2 ^ 53 by positivity)
    calc ((x % 2 ^ 53 : Nat) : ℚ) < ((2 ^ 53 : Nat) : ℚ) := by exact_mod_cast this
      _ = 2 ^ 53 := by norm_num
  constructor
  · have : (0 : ℚ) ≤ ((1000 : ℚ) - 1) * ((x % 2 ^ 53 : Nat) : ℚ) / 2 ^ 53 := by
      positivity
    linarith
  · have hd : ((x % 2 ^ 53 : Nat) : ℚ) / 2 ^ 53 < 1 := by
      rw [div_lt_one (by positivity)]
      exact h1
    nlinarith

/-! ## The per-change invariant -/

theorem nextClock_eq (s : PyState) :
    nextClock s = (s.clock s.cpos, { s with cpos := s.cpos + 1 }) := rfl

theorem py_uniform_eq (a b : ℚ) (s : PyState) :
    py_uniform a b s = (a + (b - a) * ((s.rand s.rpos % 2 ^ 53 : Nat) : ℚ) / 2 ^ 53,
      { s with rpos := s.rpos + 1 }) := rfl

theorem py_choice_eq {α : Type} (xs : List α) (s : PyState) :
    py_choice xs s =
      match xs.get? (s.rand s.rpos % xs.length) with
      | some a => some (a, { s with rpos := s.rpos + 1 })
      | none => none := rfl

theorem makeChange_spec {s : PyState} {c : Change} {s' : PyState}
    (h : makeChange s = some (c, s')) :
    (0 ≤ c.row ∧ c.row < 50) ∧ (0 ≤ c.column ∧ c.column < 25) ∧
      ChangeValOk c ∧ StepsState s s' := by
  have hrow := randint_val_bounds 0 49 (by norm_num) (s.rand s.rpos)
  have hcol := randint_val_bounds 0 24 (by norm_num) (s.rand (s.rpos + 1))
  unfold makeChange at h
  rw [py_randint_eq 0 49 (by norm_num)] at h
  simp only [Option.bind_eq_bind, Option.some_bind] at h
  rw [py_randint_eq 0 24 (by norm_num)] at h
  simp only [Option.bind_eq_bind, Option.some_bind] at h
  rw [py_choice_eq value_types] at h
  obtain ⟨m, hm5, hmeq⟩ :
      ∃ m, m < 5 ∧ s.rand (s.rpos + 1 + 1) % value_types.length = m :=
    ⟨_, by rw [show value_types.length = 5 from rfl]
           exact Nat.mod_lt _ (by norm_num), rfl⟩
  rw [hmeq] at h
  interval_cases m
  · -- "string"
    rw [show value_types.get? 0 = some (pystr "string") from rfl] at h
    simp only [Option.bind_eq_bind, Option.some_bind] at h
    rw [if_pos trivial, py_randint_eq 1000 9999 (by norm_num)] at h
    have hk := randint_val_bounds 1000 9999 (by norm_num) (s.rand (s.rpos + 1 + 1 + 1))
    simp only [Option.bind_eq_bind, Option.some_bind, Option.pure_def,
      Option.some_inj, Prod.mk.injEq] at h
    obtain ⟨hc, hs⟩ := h
    subst hc
    subst hs
    refine ⟨by dsimp only; omega, by dsimp only; omega, ?_, ?_⟩
    · exact Or.inl ⟨rfl, 1000 + (s.rand (s.rpos + 1 + 1 + 1) : Int) % (9999 - 1000 + 1),
        by omega, by omega, rfl⟩
    · exact ⟨rfl, rfl, by show s.rpos ≤ s.rpos + 1 + 1 + 1 + 1; omega,
        by show s.cpos ≤ s.cpos; omega⟩
  · -- "number"
    rw [show value_types.get? 1 = some (pystr "number") from rfl] at h
    simp only [Option.bind_eq_bind, Option.some_bind] at h
    rw [if_neg (by decide), if_pos trivial] at h
    rw [py_uniform_eq] at h
    have hq := py_uniform_1_1000_bounds (s.rand (s.rpos + 1 + 1 + 1))
    simp only [Option.bind_eq_bind, Option.some_bind, Option.pure_def,
      Option.some_inj, Prod.mk.injEq] at h
    obtain ⟨hc, hs⟩ := h
    subst hc
    subst hs
    refine ⟨by dsimp only; omega, by dsimp only; omega, ?_, ?_⟩
    · exact Or.inr (Or.inl ⟨rfl,
        1 + ((1000 : ℚ) - 1) * ((s.rand (s.rpos + 1 + 1 + 1) % 2 ^ 53 : Nat) : ℚ) / 2 ^ 53,
        hq.1, hq.2, rfl⟩)
    · exact ⟨rfl, rfl, by show s.rpos ≤ s.rpos + 1 + 1 + 1 + 1; omega,
        by show s.cpos ≤ s.cpos; omega⟩
  · -- "integer"
    rw [show value_types.get? 2 = some (pystr "integer") from rfl] at h
    simp only [Option.bind_eq_bind, Option.some_bind] at h
    rw [if_neg (by decide), if_neg (by decide), if_pos trivial,
      py_randint_eq 1 1000 (by norm_num)] at h
    have hk := randint_val_bounds 1 1000 (by norm_num) (s.rand (s.rpos + 1 + 1 + 1))
    simp only [Option.bind_eq_bind, Option.some_bind, Option.pure_def,
      Option.some_inj, Prod.mk.injEq] at h
    obtain ⟨hc, hs⟩ := h
    subst hc
    subst hs
    refine ⟨by dsimp only; omega, by dsimp only; omega, ?_, ?_⟩
    · exact Or.inr (Or.inr (Or.inl ⟨rfl,
        1 + (s.rand (s.rpos + 1 + 1 + 1) : Int) % (1000 - 1 + 1), by omega, by omega, rfl⟩))
    · exact ⟨rfl, rfl, by show s.rpos ≤ s.rpos + 1 + 1 + 1 + 1; omega,
        by show s.cpos ≤ s.cpos; omega⟩
  · -- "boolean"
    rw [show value_types.get? 3 = some (pystr "boolean") from rfl] at h
    simp only [Option.bind_eq_bind, Option.some_bind] at h
    rw [if_neg (by decide), if_neg (by decide), if_neg (by decide), if_pos trivial,
      py_choice_eq [true, false]] at h
    have hb2 : s.rand (s.rpos + 1 + 1 + 1) % ([true, false] : List Bool).length < 2 :=
      Nat.mod_lt _ (by norm_num)
    cases hg : ([true, false] : List Bool).get?
        (s.rand (s.rpos + 1 + 1 + 1) % ([true, false] : List Bool).length) with
    | none =>
      exfalso
      have := List.get?_eq_none.mp hg
      simp only [List.length_cons, List.length_singleton] at this hb2
      omega
    | some b =>
      rw [hg] at h
      simp only [Option.bind_eq_bind, Option.some_bind, Option.pure_def,
        Option.some_inj, Prod.mk.injEq] at h
      obtain ⟨hc, hs⟩ := h
      subst hc
      subst hs
      refine ⟨by dsimp only; omega, by dsimp only; omega, ?_, ?_⟩
      · exact Or.inr (Or.inr (Or.inr (Or.inl ⟨rfl, b, rfl⟩)))
      · exact ⟨rfl, rfl, by show s.rpos ≤ s.rpos + 1 + 1 + 1 + 1; omega,
          by show s.cpos ≤ s.cpos; omega⟩
  · -- "timestamp"
    rw [show value_types.get? 4 = some (pystr "timestamp") from rfl] at h
    simp only [Option.bind_eq_bind, Option.some_bind] at h
    rw [if_neg (by decide), if_neg (by decide), if_neg (by decide), if_neg (by decide),
      nextClock_eq] at h
    simp only [Option.bind_eq_bind, Option.some_bind, Option.pure_def,
      Option.some_inj, Prod.mk.injEq] at h
    obtain ⟨hc, hs⟩ := h
    subst hc
    subst hs
    refine ⟨by dsimp only; omega, by dsimp only; omega, ?_, ?_⟩
    · exact Or.inr (Or.inr (Or.inr (Or.inr ⟨rfl, s.clock s.cpos, rfl⟩)))
    · exact ⟨rfl, rfl, by show s.rpos ≤ s.rpos + 1 + 1 + 1; omega,
        by show s.cpos ≤ s.cpos + 1; omega⟩

theorem stepsState_refl (s : PyState) : StepsState s s := ⟨rfl, rfl, le_rfl, le_rfl⟩

theorem stepsState_trans {s t u : PyState} (a : StepsState s t) (b : StepsState t u) :
    StepsState s u :=
  ⟨by rw [b.1, a.1], by rw [b.2.1, a.2.1], le_trans a.2.2.1 b.2.2.1,
    le_trans a.2.2.2 b.2.2.2⟩

theorem makeChanges_spec :
    ∀ (n : Nat) (s : PyState) (cs : List Change) (s₁ : PyState),
      makeChanges n s = some (cs, s₁) →
      cs.length = n ∧ StepsState s s₁ ∧
        ∀ c ∈ cs, (0 ≤ c.row ∧ c.row < 50) ∧ (0 ≤ c.column ∧ c.column < 25) ∧
          ChangeValOk c := by
  intro n
  induction n with
  | zero =>
    intro s cs s₁ h
    simp only [makeChanges, Option.some_inj, Prod.mk.injEq] at h
    obtain ⟨rfl, rfl⟩ := h
    exact ⟨rfl, stepsState_refl s, by simp⟩
  | succ n ih =>
    intro s cs s₁ h
    unfold makeChanges at h
    cases hm : makeChange s with
    | none => rw [hm] at h; cases h
    | some p =>
      obtain ⟨c, s₂⟩ := p
      rw [hm] at h
      simp only [Option.bind_eq_bind, Option.some_bind] at h
      cases hms : makeChanges n s₂ with
      | none => rw [hms] at h; cases h
      | some q =>
        obtain ⟨cs', s₁'⟩ := q
        rw [hms] at h
        simp only [Option.bind_eq_bind, Option.some_bind, Option.pure_def,
          Option.some_inj, Prod.mk.injEq] at h
        obtain ⟨rfl, rfl⟩ := h
        obtain ⟨hr, hcl, hok, hst⟩ := makeChange_spec hm
        obtain ⟨hlen, hst2, hall⟩ := ih s₂ cs' s₁' hms
        refine ⟨by simp [hlen], stepsState_trans hst hst2, ?_⟩
        intro c' hc'
        rcases List.mem_cons.mp hc' with h | h
        · subst h; exact ⟨hr, hcl, hok⟩
        · exact hall c' h

theorem makeChange_isSome (s : PyState) : (makeChange s).isSome := by
  unfold makeChange
  rw [py_randint_eq 0 49 (by norm_num)]
  simp only [Option.bind_eq_bind, Option.some_bind]
  rw [py_randint_eq 0 24 (by norm_num)]
  simp only [Option.bind_eq_bind, Option.some_bind]
  rw [py_choice_eq value_types]
  obtain ⟨m, hm5, hmeq⟩ :
      ∃ m, m < 5 ∧ s.rand (s.rpos + 1 + 1) % value_types.length = m :=
    ⟨_, by rw [show value_types.length = 5 from rfl]
           exact Nat.mod_lt _ (by norm_num), rfl⟩
  rw [hmeq]
  interval_cases m
  · rw [show value_types.get? 0 = some (pystr "string") from rfl]
    simp only [Option.bind_eq_bind, Option.some_bind]
    rw [if_pos trivial, py_randint_eq 1000 9999 (by norm_num)]
    simp only [Option.bind_eq_bind, Option.some_bind, Option.pure_def, Option.isSome_some]
  · rw [show value_types.get? 1 = some (pystr "number") from rfl]
    simp only [Option.bind_eq_bind, Option.some_bind]
    rw [if_neg (by decide), if_pos trivial]
    simp only [Option.bind_eq_bind, Option.some_bind, Option.pure_def, Option.isSome_some]
  · rw [show value_types.get? 2 = some (pystr "integer") from rfl]
    simp only [Option.bind_eq_bind, Option.some_bind]
    rw [if_neg (by decide), if_neg (by decide), if_pos trivial,
      py_randint_eq 1 1000 (by norm_num)]
    simp only [Option.bind_eq_bind, Option.some_bind, Option.pure_def, Option.isSome_some]
  · rw [show value_types.get? 3 = some (pystr "boolean") from rfl]
    simp only [Option.bind_eq_bind, Option.some_bind]
    rw [if_neg (by decide), if_neg (by decide), if_neg (by decide), if_pos trivial,
      py_choice_total [true, false] (by decide)]
    simp only [Option.bind_eq_bind, Option.some_bind, Option.pure_def, Option.isSome_some]
  · rw [show value_types.get? 4 = some (pystr "timestamp") from rfl]
    simp only [Option.bind_eq_bind, Option.some_bind]
    rw [if_neg (by decide), if_neg (by decide), if_neg (by decide), if_neg (by decide)]
    simp only [Option.bind_eq_bind, Option.some_bind, Option.pure_def, Option.isSome_some]

theorem makeChanges_total : ∀ (n : Nat) (s : PyState),
    ∃ cs s₁, makeChanges n s = some (cs, s₁) := by
  intro n
  induction n with
  | zero => intro s; exact ⟨[], s, rfl⟩
  | succ n ih =>
    intro s
    obtain ⟨p, hp⟩ := Option.isSome_iff_exists.mp (makeChange_isSome s)
    obtain ⟨c, s₂⟩ := p
    obtain ⟨cs, s₁, hms⟩ := ih s₂
    refine ⟨c :: cs, s₁, ?_⟩
    unfold makeChanges
    rw [hp]
    simp only [Option.bind_eq_bind, Option.some_bind, hms, Option.pure_def]

theorem create_spec {gid : List Char} {n : Int} {s : PyState} {b : UpdateBatch}
    {s' : PyState} (h : create_cell_update_message gid n s = some (b, s')) :
    ∃ s₁ : PyState, makeChanges n.toNat s = some (b.changes, s₁) ∧
      StepsState s s₁ ∧
      s'.rand = s.rand ∧ s'.clock = s.clock ∧
      s'.rpos = s₁.rpos + 1 ∧ s'.cpos = s₁.cpos + 2 ∧
      b.gridId = gid ∧ b.eventType = pystr "CELL_UPDATE" ∧
      (∃ r : Int, 1000 ≤ r ∧ r ≤ 9999 ∧
        b.batchId = batchIdString (s.clock s₁.cpos) r) ∧
      b.timestamp = ((s.clock (s₁.cpos + 1) : Nat) : Int) := by
  unfold create_cell_update_message at h
  cases hmc : makeChanges n.toNat s with
  | none => rw [hmc] at h; cases h
  | some p =>
    obtain ⟨cs, s₁⟩ := p
    rw [hmc] at h
    simp only [Option.bind_eq_bind, Option.some_bind, nextClock_eq] at h
    rw [py_randint_eq 1000 9999 (by norm_num)] at h
    simp only [Option.bind_eq_bind, Option.some_bind, Option.pure_def,
      Option.some_inj, Prod.mk.injEq] at h
    obtain ⟨hb, hs⟩ := h
    subst hb
    subst hs
    have hstc := (makeChanges_spec n.toNat s cs s₁ hmc).2.1
    have hrand : s₁.rand = s.rand := hstc.1
    have hclock : s₁.clock = s.clock := hstc.2.1
    have hk := randint_val_bounds 1000 9999 (by norm_num) (s₁.rand s₁.rpos)
    refine ⟨s₁, ?_, hstc, ?_, ?_, ?_, ?_, rfl, rfl, ?_, ?_⟩
    · rfl
    · show s₁.rand = s.rand
      exact hrand
    · show s₁.clock = s.clock
      exact hclock
    · show s₁.rpos + 1 = s₁.rpos + 1
      rfl
    · show s₁.cpos + 1 + 1 = s₁.cpos + 2
      omega
    · refine ⟨1000 + (s₁.rand s₁.rpos : Int) % (9999 - 1000 + 1),
        by omega, by omega, ?_⟩
      show batchIdString (s₁.clock s₁.cpos) _ = _
      rw [hclock]
    · show ((s₁.clock (s₁.cpos + 1) : Nat) : Int) = _
      rw [hclock]

theorem create_total (gid : List Char) (n : Int) (s : PyState) :
    ∃ b s', create_cell_update_message gid n s = some (b, s') := by
  obtain ⟨cs, s₁, hmc⟩ := makeChanges_total n.toNat s
  have hsome : (create_cell_update_message gid n s).isSome := by
    unfold create_cell_update_message
    rw [hmc]
    simp only [Option.bind_eq_bind, Option.some_bind, nextClock_eq]
    rw [py_randint_eq 1000 9999 (by norm_num)]
    simp only [Option.bind_eq_bind, Option.some_bind, Option.pure_def, Option.isSome_some]
  obtain ⟨p, hp⟩ := Option.isSome_iff_exists.mp hsome
  exact ⟨p.1, p.2, by rw [hp]⟩

theorem mainMessage_eq (s : PyState) :
    mainMessage s = create_cell_update_message (pystr "user1_view1")
      (1 + (s.rand s.rpos : Int) % 3) { s with rpos := s.rpos + 1 } := by
  unfold mainMessage
  rw [py_randint_eq 1 3 (by norm_num)]
  simp only [Option.bind_eq_bind, Option.some_bind]
  norm_num

/-! ## Lemmas: rounding -/

theorem roundHalfEven_bounds (q : ℚ) :
    ⌊q⌋ ≤ roundHalfEven q ∧ roundHalfEven q ≤ ⌊q⌋ + 1 := by
  unfold roundHalfEven
  dsimp only
  split
  · omega
  · split
    · omega
    · split <;> omega

theorem roundHalfEven_intCast (n : ℤ) : roundHalfEven (n : ℚ) = n := by
  unfold roundHalfEven
  rw [Int.floor_intCast]
  rw [if_pos]
  simp only [sub_self]
  norm_num

theorem py_round2_bounds {q : ℚ} (h1 : 1 ≤ q) (h2 : q < 1000) :
    1 ≤ py_round2 q ∧ py_round2 q ≤ 1000 := by
  have hf1 : (100 : ℤ) ≤ ⌊100 * q⌋ := by
    rw [Int.le_floor]
    push_cast
    linarith
  have hf2 : ⌊100 * q⌋ < 100000 := by
    rw [Int.floor_lt]
    push_cast
    linarith
  obtain ⟨ha, hb⟩ := roundHalfEven_bounds (100 * q)
  unfold py_round2
  constructor
  · rw [le_div_iff₀ (by norm_num : (0:ℚ) < 100)]
    have : (100 : ℚ) ≤ (roundHalfEven (100 * q) : ℚ) := by exact_mod_cast by omega
    linarith
  · rw [div_le_iff₀ (by norm_num : (0:ℚ) < 100)]
    have : (roundHalfEven (100 * q) : ℚ) ≤ 100000 := by exact_mod_cast by omega
    linarith

theorem py_round2_idem (q : ℚ) : py_round2 (py_round2 q) = py_round2 q := by
  unfold py_round2
  have h100 : (100 : ℚ) * ((roundHalfEven (100 * q) : ℚ) / 100) =
      ((roundHalfEven (100 * q) : ℤ) : ℚ) := by
    field_simp
  rw [h100, roundHalfEven_intCast]

/-! ## Lemmas: `batchId` injectivity -/

theorem intToChars_nonneg (r : Int) (h : 0 ≤ r) :
    intToChars r = natToChars r.toNat := by
  unfold intToChars
  rw [if_neg (by omega)]

theorem batchIdString_inj {t1 t2 : Nat} {r1 r2 : Int}
    (ha1 : 1000 ≤ r1) (ha2 : r1 ≤ 9999) (hb1 : 1000 ≤ r2) (hb2 : r2 ≤ 9999)
    (h : batchIdString t1 r1 = batchIdString t2 r2) : t1 = t2 ∧ r1 = r2 := by
  unfold batchIdString at h
  rw [intToChars_nonneg r1 (by omega), intToChars_nonneg r2 (by omega)] at h
  have hl1 : (natToChars r1.toNat).length = 4 :=
    natToChars_length_four (by omega) (by omega)
  have hl2 : (natToChars r2.toNat).length = 4 :=
    natToChars_length_four (by omega) (by omega)
  have h3 := List.append_inj' h (by simp [hl1, hl2])
  obtain ⟨hpre, htail⟩ := h3
  have ht' := natToChars_inj (List.append_cancel_left hpre)
  have hr' : r1.toNat = r2.toNat := natToChars_inj (by injection htail)
  exact ⟨ht', by omega⟩

/-! ## Well-formedness of the JSON tree of a produced batch -/

theorem safeStr_append {a b : List Char} (ha : SafeStr a) (hb : SafeStr b) :
    SafeStr (a ++ b) := by
  intro c hc
  rcases List.mem_append.mp hc with h | h
  · exact ha c h
  · exact hb c h

theorem safeChar_of_digit {c : Char} (h : isDigitC c = true) : SafeChar c := by
  obtain ⟨h1, h2⟩ := isDigitC_toNat h
  exact ⟨by omega, by omega, by omega, by omega⟩

theorem safeStr_natToChars (n : Nat) : SafeStr (natToChars n) :=
  fun c hc => safeChar_of_digit (natToChars_digits c hc)

theorem safeStr_intToChars_nonneg {r : Int} (h : 0 ≤ r) : SafeStr (intToChars r) := by
  rw [intToChars_nonneg r h]
  exact safeStr_natToChars r.toNat

theorem safeStr_batchIdString (t : Nat) {r : Int} (h : 0 ≤ r) :
    SafeStr (batchIdString t r) := by
  unfold batchIdString
  refine safeStr_append (safeStr_append (by decide) (safeStr_natToChars t)) ?_
  intro c hc
  rcases List.mem_cons.mp hc with hcc | hcc
  · subst hcc; decide
  · exact safeStr_intToChars_nonneg h c hcc

theorem change_toJson_wf {c : Change} (hok : ChangeValOk c) : JsonWf c.toJson := by
  unfold Change.toJson
  simp only [JsonWf, JsonObjWf]
  refine ⟨by decide, trivial, by decide, trivial, by decide, ?_, by decide, ?_, trivial⟩
  · rcases hok with ⟨_, k, hk1, _, hv⟩ | ⟨_, q, _, _, hv⟩ | ⟨_, k, _, _, hv⟩ |
      ⟨_, b, hv⟩ | ⟨_, t, hv⟩ <;> rw [hv] <;> simp only [CellValue.toJson, JsonWf]
    · exact safeStr_append (by decide) (safeStr_intToChars_nonneg (by omega))
  · rcases hok with ⟨ht, _⟩ | ⟨ht, _⟩ | ⟨ht, _⟩ | ⟨ht, _⟩ | ⟨ht, _⟩ <;>
      rw [ht] <;> decide

theorem changes_toJson_wf {cs : List Change} (h : ∀ c ∈ cs, ChangeValOk c) :
    JsonListWf (changesToJson cs) := by
  induction cs with
  | nil => trivial
  | cons c t ih =>
    simp only [changesToJson, JsonListWf]
    exact ⟨change_toJson_wf (h c (by simp)), ih fun c' hc' => h c' (by simp [hc'])⟩

theorem batch_toJson_wf {gid : List Char} {n : Int} {s : PyState} {b : UpdateBatch}
    {s' : PyState} (hgid : SafeStr gid)
    (h : create_cell_update_message gid n s = some (b, s')) :
    JsonWf b.toJson := by
  obtain ⟨s₁, hmc, _, _, _, _, _, hgr, hev, ⟨r, hr1, hr2, hbid⟩, _⟩ := create_spec h
  have hall := (makeChanges_spec _ _ _ _ hmc).2.2
  unfold UpdateBatch.toJson
  simp only [JsonWf, JsonObjWf]
  refine ⟨by decide, ?_, by decide, ?_, by decide, ?_, by decide, ?_, by decide,
    trivial, trivial⟩
  · rw [hbid]
    exact safeStr_batchIdString _ (by omega)
  · rw [hgr]
    exact hgid
  · rw [hev]
    decide
  · exact changes_toJson_wf fun c hc => (hall c hc).2.2

/-! ## Lemmas: the `main()` control-flow model -/

theorem runLoop_first (env : LoopEnv) :
    ∀ (i fuel i0 : Nat) (s : MState) (p : OpPoint) (e : PExn),
      (∀ j, j < i → env.iterFail (i0 + j) = none) →
      env.iterFail (i0 + i) = some (p, e) → i < fuel →
      runLoop env fuel i0 s = some (e, s) := by
  intro i
  induction i with
  | zero =>
    intro fuel i0 s p e _ hi hfuel
    obtain ⟨f, rfl⟩ : ∃ f, fuel = f + 1 := ⟨fuel - 1, by omega⟩
    unfold runLoop
    rw [show i0 + 0 = i0 from rfl] at hi
    rw [hi]
  | succ i ih =>
    intro fuel i0 s p e hbefore hi hfuel
    obtain ⟨f, rfl⟩ : ∃ f, fuel = f + 1 := ⟨fuel - 1, by omega⟩
    unfold runLoop
    rw [show env.iterFail i0 = none from by
      have := hbefore 0 (by omega)
      simpa using this]
    exact ih f (i0 + 1) s p e
      (fun j hj => by
        have := hbefore (j + 1) (by omega)
        rw [show i0 + 1 + j = i0 + (j + 1) by omega]
        exact this)
      (by rw [show i0 + 1 + i = i0 + (i + 1) by omega]; exact hi)
      (by omega)

/-! ## The claims -/

/-- C1: every `Change` produced by `create_cell_update_message` has
`row ∈ [0,50)`, `column ∈ [0,25)`, and a `newValue` whose runtime type matches
the declared `dataType` tag. -/
theorem claim_C1_change_shape {gid : List Char} {n : Int} {s : PyState}
    {b : UpdateBatch} {s' : PyState}
    (h : create_cell_update_message gid n s = some (b, s')) :
    ∀ c ∈ b.changes, (0 ≤ c.row ∧ c.row < 50) ∧ (0 ≤ c.column ∧ c.column < 25) ∧
      TypeMatches c.dataType c.newValue := by
  obtain ⟨s₁, hmc, _⟩ := create_spec h
  have hall := (makeChanges_spec _ _ _ _ hmc).2.2
  intro c hc
  obtain ⟨hr, hcl, hok⟩ := hall c hc
  refine ⟨hr, hcl, ?_⟩
  rcases hok with ⟨ht, k, _, _, hv⟩ | ⟨ht, q, _, _, hv⟩ | ⟨ht, k, _, _, hv⟩ |
    ⟨ht, b', hv⟩ | ⟨ht, t, hv⟩ <;> rw [ht, hv]
  · exact .str _
  · exact .number _
  · exact .integer _
  · exact .boolean _
  · exact .timestamp _

/-- Witness for C1 at a concrete run. -/
theorem claim_C1_witness :
    create_cell_update_message (pystr "user1_view1") 1 wState = some (wBatch, wOut) ∧
    ∀ c ∈ wBatch.changes,
      (0 ≤ c.row ∧ c.row < 50) ∧ (0 ≤ c.column ∧ c.column < 25) ∧
        TypeMatches c.dataType c.newValue :=
  ⟨rfl, @claim_C1_change_shape (pystr "user1_view1") 1 wState wBatch wOut rfl⟩

/-- C2: every batch built in `main()`'s loop (a random count in `[1,3]`, then
`create_cell_update_message`) has `eventType = "CELL_UPDATE"` and between 1
and 3 changes. -/
theorem claim_C2_batch_shape {s : PyState} {b : UpdateBatch} {s' : PyState}
    (h : mainMessage s = some (b, s')) :
    b.eventType = pystr "CELL_UPDATE" ∧
      1 ≤ b.changes.length ∧ b.changes.length ≤ 3 := by
  rw [mainMessage_eq] at h
  obtain ⟨s₁, hmc, _, _, _, _, _, _, hev, _, _⟩ := create_spec h
  have hlen := (makeChanges_spec _ _ _ _ hmc).1
  have hx1 : 0 ≤ (s.rand s.rpos : Int) % 3 := Int.emod_nonneg _ (by norm_num)
  have hx2 : (s.rand s.rpos : Int) % 3 < 3 := Int.emod_lt_of_pos _ (by norm_num)
  refine ⟨hev, ?_, ?_⟩ <;> omega

/-- Witness for C2 at a concrete run. -/
theorem claim_C2_witness :
    mainMessage wState = some (wBatch, w2Out) ∧
    (wBatch.eventType = pystr "CELL_UPDATE" ∧
      1 ≤ wBatch.changes.length ∧ wBatch.changes.length ≤ 3) :=
  ⟨rfl, @claim_C2_batch_shape wState wBatch w2Out rfl⟩

/-- C3 as stated is false on the code: with a stalled millisecond clock and a
repeating random suffix, two successive calls to `create_cell_update_message`
produce two distinct batches with the same `batchId`. -/
theorem claim_C3_counterexample :
    c3run = some (c3b1, c3b2) ∧ c3b1.batchId = c3b2.batchId ∧ c3b1 ≠ c3b2 :=
  ⟨rfl, rfl, by decide⟩

/-- C3 amended: `batchId` is unique provided the millisecond clock strictly
increases between the readings of successive calls; under a strictly
increasing clock two successive batches always get different `batchId`s. -/
theorem claim_C3_amended {s : PyState} {b1 b2 : UpdateBatch} {s1 s2 : PyState}
    (hstrict : ∀ i j, i < j → s.clock i < s.clock j)
    (h1 : mainMessage s = some (b1, s1)) (h2 : mainMessage s1 = some (b2, s2)) :
    b1.batchId ≠ b2.batchId := by
  rw [mainMessage_eq] at h1 h2
  obtain ⟨t1st, hmc1, hst1, hr1, hc1, hp1, hq1, _, _, ⟨r1, hr11, hr12, hbid1⟩, _⟩ :=
    create_spec h1
  obtain ⟨t2st, hmc2, hst2, hr2, hc2, hp2, hq2, _, _, ⟨r2, hr21, hr22, hbid2⟩, _⟩ :=
    create_spec h2
  have hbid1' : b1.batchId = batchIdString (s.clock t1st.cpos) r1 := hbid1
  have hbid2' : b2.batchId = batchIdString (s1.clock t2st.cpos) r2 := hbid2
  have hc1' : s1.clock = s.clock := hc1
  rw [hc1'] at hbid2'
  have hcl2 : s1.cpos ≤ t2st.cpos := hst2.2.2.2
  have hq1' : s1.cpos = t1st.cpos + 2 := hq1
  intro heq
  rw [hbid1', hbid2'] at heq
  have hidx : t1st.cpos < t2st.cpos := by omega
  have hne := hstrict _ _ hidx
  have := (batchIdString_inj hr11 hr12 hr21 hr22 heq).1
  omega

/-- Witness for the amended C3 at a concrete run with a strictly increasing
clock. -/
theorem claim_C3_amended_witness :
    (∀ i j, i < j → c3amState.clock i < c3amState.clock j) ∧
    mainMessage c3amState = some (wBatch, w2Out) ∧
    mainMessage w2Out = some (c3amB2, c3amOut2) ∧
    wBatch.batchId ≠ c3amB2.batchId :=
  ⟨fun _ _ h => h, rfl, rfl,
    @claim_C3_amended c3amState wBatch c3amB2 w2Out c3amOut2
      (fun _ _ h => h) rfl rfl⟩

/-- C4: with a monotone (non-decreasing) wall clock, the `timestamp` fields of
successive batches within a run are non-decreasing. -/
theorem claim_C4_timestamp_monotone {s : PyState} {b1 b2 : UpdateBatch}
    {s1 s2 : PyState}
    (hmono : ∀ i j, i ≤ j → s.clock i ≤ s.clock j)
    (h1 : mainMessage s = some (b1, s1)) (h2 : mainMessage s1 = some (b2, s2)) :
    b1.timestamp ≤ b2.timestamp := by
  rw [mainMessage_eq] at h1 h2
  obtain ⟨t1st, hmc1, hst1, hr1, hc1, hp1, hq1, _, _, _, hts1⟩ := create_spec h1
  obtain ⟨t2st, hmc2, hst2, hr2, hc2, hp2, hq2, _, _, _, hts2⟩ := create_spec h2
  have hts1' : b1.timestamp = ((s.clock (t1st.cpos + 1) : Nat) : Int) := hts1
  have hts2' : b2.timestamp = ((s1.clock (t2st.cpos + 1) : Nat) : Int) := hts2
  have hc1' : s1.clock = s.clock := hc1
  rw [hc1'] at hts2'
  have hcl2 : s1.cpos ≤ t2st.cpos := hst2.2.2.2
  have hq1' : s1.cpos = t1st.cpos + 2 := hq1
  have hmono' := hmono (t1st.cpos + 1) (t2st.cpos + 1) (by omega)
  rw [hts1', hts2']
  exact_mod_cast hmono'

/-- Witness for C4 at a concrete run with the identity clock. -/
theorem claim_C4_witness :
    (∀ i j, i ≤ j → c3amState.clock i ≤ c3amState.clock j) ∧
    mainMessage c3amState = some (wBatch, w2Out) ∧
    mainMessage w2Out = some (c3amB2, c3amOut2) ∧
    wBatch.timestamp ≤ c3amB2.timestamp :=
  ⟨fun _ _ h => h, rfl, rfl,
    @claim_C4_timestamp_monotone c3amState wBatch c3amB2 w2Out c3amOut2
      (fun _ _ h => h) rfl rfl⟩

/-- C5: serialization round-trip — decoding the UTF-8 JSON encoding produced
by the value serializer (`json.dumps(v).encode('utf-8')`) reproduces exactly
the JSON structure of the batch, for every batch the synthesizer produces
(any `grid_id` whose characters serialize verbatim, in particular the
default). -/
theorem claim_C5_roundtrip {gid : List Char} {n : Int} {s : PyState}
    {b : UpdateBatch} {s' : PyState} (hgid : SafeStr gid)
    (h : create_cell_update_message gid n s = some (b, s')) :
    json_loads_bytes (value_serializer b.toJson) = some b.toJson :=
  json_loads_dumps (batch_toJson_wf hgid h)

/-- Witness for C5 at a concrete run. -/
theorem claim_C5_witness :
    SafeStr (pystr "user1_view1") ∧
    create_cell_update_message (pystr "user1_view1") 1 wState = some (wBatch, wOut) ∧
    json_loads_bytes (value_serializer wBatch.toJson) = some wBatch.toJson :=
  ⟨by decide, rfl,
    @claim_C5_roundtrip (pystr "user1_view1") 1 wState wBatch wOut (by decide) rfl⟩

/-- C6: if the interrupt (`KeyboardInterrupt`) arrives during the sleep phase
of some loop iteration — the connection having been created and no earlier
iteration having failed — then `main()` returns normally with
`producer.close()` invoked exactly once. -/
theorem claim_C6_close_once {env : LoopEnv} {i fuel : Nat}
    (hc : env.createFail = none)
    (hbefore : ∀ j, j < i → env.iterFail j = none)
    (hi : env.iterFail i = some (OpPoint.sleep, PExn.ki))
    (hfuel : i < fuel) :
    pyMain env fuel = some (none, { producerBound := true, closeCalls := 1 }) := by
  have hrb : runBody env fuel ⟨false, 0⟩ = some (PExn.ki, ⟨true, 0⟩) := by
    unfold runBody
    rw [hc]
    exact runLoop_first env i fuel 0 _ _ _ (by simpa using hbefore)
      (by simpa using hi) hfuel
  unfold pyMain
  rw [hrb]
  rfl

/-- Witness for C6 at a concrete schedule: the interrupt arrives in the sleep
of the first iteration. -/
theorem claim_C6_witness :
    env0.createFail = none ∧
    env0.iterFail 0 = some (OpPoint.sleep, PExn.ki) ∧
    pyMain env0 1 = some (none, { producerBound := true, closeCalls := 1 }) :=
  ⟨rfl, rfl, @claim_C6_close_once env0 0 1 rfl
    (fun j hj => absurd hj (by omega)) rfl (by omega)⟩

/-- C7: the synthesizer is total (no failure mode reaches the caller: every
fallible primitive it invokes is called within its defined domain), it leaves
the ambient random/clock environment unchanged apart from advancing the
cursors, and — with the random and clock streams as explicit inputs — two
calls on identical inputs return identical batches. -/
theorem claim_C7_pure_total (gid : List Char) (n : Int) (s s₂ : PyState)
    (heq : s = s₂) :
    (∃ b s', create_cell_update_message gid n s = some (b, s') ∧
      s'.rand = s.rand ∧ s'.clock = s.clock) ∧
    create_cell_update_message gid n s = create_cell_update_message gid n s₂ := by
  subst heq
  refine ⟨?_, rfl⟩
  obtain ⟨b, s', h⟩ := create_total gid n s
  obtain ⟨_, _, _, hr, hc, _⟩ := create_spec h
  exact ⟨b, s', h, hr, hc⟩

/-- Witness for C7 at a concrete input. -/
theorem claim_C7_witness :
    wState = wState ∧
    ((∃ b s', create_cell_update_message (pystr "user1_view1") 1 wState =
        some (b, s') ∧ s'.rand = wState.rand ∧ s'.clock = wState.clock) ∧
      create_cell_update_message (pystr "user1_view1") 1 wState =
        create_cell_update_message (pystr "user1_view1") 1 wState) :=
  ⟨rfl, claim_C7_pure_total (pystr "user1_view1") 1 wState wState rfl⟩

/-- C8: every change whose `dataType` is forced to `"integer"` carries an
integer `newValue` in the inclusive range `[1, 1000]` (in particular in a
call with count 1). -/
theorem claim_C8_integer_range {gid : List Char} {n : Int} {s : PyState}
    {b : UpdateBatch} {s' : PyState}
    (h : create_cell_update_message gid n s = some (b, s')) :
    ∀ c ∈ b.changes, c.dataType = pystr "integer" →
      ∃ v : Int, c.newValue = CellValue.int v ∧ 1 ≤ v ∧ v ≤ 1000 := by
  obtain ⟨s₁, hmc, _⟩ := create_spec h
  have hall := (makeChanges_spec _ _ _ _ hmc).2.2
  intro c hc ht
  obtain ⟨_, _, hok⟩ := hall c hc
  rcases hok with ⟨ht', _⟩ | ⟨ht', _⟩ | ⟨_, k, h1, h2, hv⟩ | ⟨ht', _⟩ | ⟨ht', _⟩
  · exact absurd (ht'.symm.trans ht) (by decide)
  · exact absurd (ht'.symm.trans ht) (by decide)
  · exact ⟨k, hv, h1, h2⟩
  · exact absurd (ht'.symm.trans ht) (by decide)
  · exact absurd (ht'.symm.trans ht) (by decide)

/-- Witness for C8: a `synthesize(1)` run whose draw selects the `"integer"`
branch. -/
theorem claim_C8_witness :
    create_cell_update_message (pystr "user1_view1") 1 c8State = some (c8Batch, c8Out) ∧
    ∀ c ∈ c8Batch.changes, c.dataType = pystr "integer" →
      ∃ v : Int, c.newValue = CellValue.int v ∧ 1 ≤ v ∧ v ≤ 1000 :=
  ⟨rfl, @claim_C8_integer_range (pystr "user1_view1") 1 c8State c8Batch c8Out rfl⟩

/-- C9: `main()` never lets an exception escape: whenever the modelled run
terminates, the escaped-exception component is `none` — every
`KeyboardInterrupt`/`Exception` from the loop body is caught by the handler
clauses, and any failure in the cleanup path (`close()` raising, or the
`NameError` when the producer was never bound) is swallowed by the bare
`except`. -/
theorem claim_C9_no_escape {env : LoopEnv} {fuel : Nat}
    {out : Option PExn × MState}
    (h : pyMain env fuel = some out) : out.1 = none := by
  unfold pyMain at h
  cases hrb : runBody env fuel ⟨false, 0⟩ with
  | none => rw [hrb] at h; cases h
  | some p =>
    obtain ⟨e, st⟩ := p
    rw [hrb] at h
    simp only [Option.some_inj] at h
    rw [← h]
    cases e <;> rfl

/-- Witness for C9 at a concrete schedule (including a failing `close()` and
a failing `create_producer()` would work equally; here the sleep interrupt). -/
theorem claim_C9_witness :
    pyMain env0 1 = some (none, { producerBound := true, closeCalls := 1 }) ∧
    ((none : Option PExn), ({ producerBound := true, closeCalls := 1 } : MState)).1 = none :=
  ⟨rfl, @claim_C9_no_escape env0 1
    ((none : Option PExn), ({ producerBound := true, closeCalls := 1 } : MState)) rfl⟩

/-- C10: every change tagged `"number"` carries a float (here: rational) in
`[1.0, 1000.0]` that is a fixed point of rounding to 2 decimal places. -/
theorem claim_C10_number_shape {gid : List Char} {n : Int} {s : PyState}
    {b : UpdateBatch} {s' : PyState}
    (h : create_cell_update_message gid n s = some (b, s')) :
    ∀ c ∈ b.changes, c.dataType = pystr "number" →
      ∃ q : ℚ, c.newValue = CellValue.num q ∧ 1 ≤ q ∧ q ≤ 1000 ∧
        py_round2 q = q := by
  obtain ⟨s₁, hmc, _⟩ := create_spec h
  have hall := (makeChanges_spec _ _ _ _ hmc).2.2
  intro c hc ht
  obtain ⟨_, _, hok⟩ := hall c hc
  rcases hok with ⟨ht', _⟩ | ⟨_, u, h1, h2, hv⟩ | ⟨ht', _⟩ | ⟨ht', _⟩ | ⟨ht', _⟩
  · exact absurd (ht'.symm.trans ht) (by decide)
  · obtain ⟨hb1, hb2⟩ := py_round2_bounds h1 h2
    exact ⟨py_round2 u, hv, hb1, hb2, py_round2_idem u⟩
  · exact absurd (ht'.symm.trans ht) (by decide)
  · exact absurd (ht'.symm.trans ht) (by decide)
  · exact absurd (ht'.symm.trans ht) (by decide)

/-- Witness for C10: a run whose draw selects the `"number"` branch. -/
theorem claim_C10_witness :
    create_cell_update_message (pystr "user1_view1") 1 cXState = some (cXBatch, cXOut) ∧
    ∀ c ∈ cXBatch.changes, c.dataType = pystr "number" →
      ∃ q : ℚ, c.newValue = CellValue.num q ∧ 1 ≤ q ∧ q ≤ 1000 ∧
        py_round2 q = q :=
  ⟨rfl, @claim_C10_number_shape (pystr "user1_view1") 1 cXState cXBatch cXOut rfl⟩
